import Mathlib

/-!
# Verification of the mi4ulings docling ingestion pipeline

Shallow embedding of the `mi4ulings-docling` crate (crawler, processor,
retry orchestrator) and proofs about the claims of its specification.

Strings are modelled as `List Char`.  The inputs appearing in concrete
evaluations are ASCII, so Rust byte indices (`str::find`, slicing) agree
with character indices and `List Char` positions.

The `url` crate (an external dependency) is modelled by a simplified WHATWG
parser `parseUrl` that covers the fragment of URL syntax exercised by the
code under verification: `scheme://host/path?rest` URLs and opaque
`scheme:rest` URLs (no userinfo, ports, percent-encoding or dot-segment
normalisation; none of those occur in the concrete inputs used below, and
the universal theorems do not depend on the internals of the parser).
-/

namespace Docling

/-- Strings as lists of characters (Rust `&str` on ASCII data). -/
abbrev Str := List Char

/-- Abbreviation for string literal data. -/
def S (s : String) : Str := s.data

/-- Newline character. -/
def nl : Char := Char.ofNat 10

/-- Double-quote character. -/
def dq : Char := Char.ofNat 34

/-- Single-quote character. -/
def sq : Char := Char.ofNat 39

/-- Backslash character. -/
def bsl : Char := Char.ofNat 92

/-- Carriage-return character. -/
def cr : Char := Char.ofNat 13

/-- Index of the first occurrence of `pat` in `s` (Rust `str::find`). -/
def findSub : Str → Str → Option Nat
  | [], pat => if pat.isEmpty then some 0 else none
  | c :: t, pat =>
    if pat.isPrefixOf (c :: t) then some 0
    else (findSub t pat).map (· + 1)

/-- Index of the first character of `s` satisfying `p` (Rust `str::find(char pred)`). -/
def findIdxP (s : Str) (p : Char → Bool) : Option Nat :=
  match s with
  | [] => none
  | c :: t => if p c then some 0 else (findIdxP t p).map (· + 1)

/-- Index of the first occurrence of character `c` in `s`. -/
def findChar (s : Str) (c : Char) : Option Nat := findIdxP s (· == c)

/-- Index of the last occurrence of character `c` in `s` (Rust `str::rfind`). -/
def rfindChar : Str → Char → Option Nat
  | [], _ => none
  | a :: t, c =>
    match rfindChar t c with
    | some i => some (i + 1)
    | none => if a == c then some 0 else none

/-- Substring containment (Rust `str::contains`). -/
def containsSub (s pat : Str) : Bool := (findSub s pat).isSome

/-- Fuelled scan of `str::replace`: at each position, either the pattern
matches (emit the replacement, skip the pattern) or the head character is
kept.  One unit of fuel is spent per position, so `length + 1` fuel is
always enough. -/
def replaceAllAux (pat rep : Str) : Nat → Str → Str
  | 0, s => s
  | _ + 1, [] => []
  | fuel + 1, c :: t =>
    if ¬pat.isEmpty ∧ pat.isPrefixOf (c :: t) then
      rep ++ replaceAllAux pat rep fuel ((c :: t).drop pat.length)
    else
      c :: replaceAllAux pat rep fuel t

/-- Replace all (leftmost, non-overlapping) occurrences of `pat` by `rep`
(Rust `str::replace`). -/
def replaceAll (pat rep : Str) (s : Str) : Str :=
  replaceAllAux pat rep (s.length + 1) s

/-- Split on newline characters, keeping empty segments. -/
def splitNl : Str → List Str
  | [] => [[]]
  | c :: t =>
    if c = nl then [] :: splitNl t
    else
      match splitNl t with
      | [] => [[c]]
      | h :: r => (c :: h) :: r

/-- Strip one trailing carriage return (part of Rust `str::lines`). -/
def stripCr (l : Str) : Str := if l.getLast? = some cr then l.dropLast else l

/-- Rust `str::lines`: split on newlines, no trailing empty line when the
string ends with a newline, trailing carriage returns stripped. -/
def rustLines (s : Str) : List Str :=
  if s.isEmpty then []
  else
    let parts := splitNl s
    let parts := if s.getLast? = some nl then parts.dropLast else parts
    parts.map stripCr

/-- Join lines with newlines (Rust `Vec::join("\n")` on lines). -/
def joinNl (ls : List Str) : Str := (ls.intersperse [nl]).flatten

/-- Split on a character, keeping empty segments (Rust `str::split(char)`). -/
def splitOnChar (c : Char) : Str → List Str
  | [] => [[]]
  | a :: t =>
    if a = c then [] :: splitOnChar c t
    else
      match splitOnChar c t with
      | [] => [[a]]
      | h :: r => (a :: h) :: r

/-- ASCII whitespace (model of Rust `char::is_whitespace` on ASCII data). -/
def isWsp (c : Char) : Bool :=
  c == ' ' || c == Char.ofNat 9 || c == nl || c == cr ||
  c == Char.ofNat 11 || c == Char.ofNat 12

/-- Trim the character `c` from both ends (Rust `str::trim_matches(c)`). -/
def trimCharBoth (c : Char) (s : Str) : Str :=
  ((s.dropWhile (· == c)).reverse.dropWhile (· == c)).reverse

/-! ## Model of the `url` crate (external dependency)

`UrlT` is a parsed URL: scheme, optional host, path and the remaining
query/fragment text.  `parseUrl` fails (returns `none`) on strings without
a scheme, which is how `Url::parse` fails on relative references. -/

/-- A parsed URL. -/
structure UrlT where
  scheme : Str
  host : Option Str
  path : Str
  rest : Str
deriving DecidableEq, Repr

/-- Scheme characters after the first (letters, digits, `+`, `-`, `.`). -/
def isSchemeChar (c : Char) : Bool :=
  (c ≥ 'a' && c ≤ 'z') || (c ≥ 'A' && c ≤ 'Z') || (c ≥ '0' && c ≤ '9') ||
  c == '+' || c == '-' || c == '.'

/-- Letters (first character of a scheme). -/
def isAlphaChar (c : Char) : Bool :=
  (c ≥ 'a' && c ≤ 'z') || (c ≥ 'A' && c ≤ 'Z')

/-- Characters terminating a host. -/
def isHostEnd (c : Char) : Bool := c == '/' || c == '?' || c == '#'

/-- Characters terminating a path. -/
def isPathEnd (c : Char) : Bool := c == '?' || c == '#'

/-- Schemes whose empty path is normalised to `/` by the WHATWG parser. -/
def isSpecialScheme (s : Str) : Bool :=
  s == S "http" || s == S "https" || s == S "ws" || s == S "wss" ||
  s == S "ftp" || s == S "file"

/-- Split `s` at the first character satisfying `p`: `(before, from-there)`. -/
def spanUntil (p : Char → Bool) (s : Str) : Str × Str :=
  (s.takeWhile (fun c => !p c), s.dropWhile (fun c => !p c))

/-- Simplified model of `Url::parse`.  Accepts `scheme://host/path?rest`
(host required and nonempty) and opaque `scheme:path?rest` forms; returns
`none` for strings with no scheme, as the real parser does for relative
references. -/
def parseUrl (s : Str) : Option UrlT :=
  match s with
  | [] => none
  | c :: _ =>
    if !isAlphaChar c then none
    else
      match findChar s ':' with
      | none => none
      | some i =>
        let scheme := s.take i
        if !(scheme.all isSchemeChar) then none
        else
          let after := s.drop (i + 1)
          if (S "//").isPrefixOf after then
            let hp := after.drop 2
            let (host, rest1) := spanUntil isHostEnd hp
            if host.isEmpty then none
            else
              let (path, rest2) := spanUntil isPathEnd rest1
              let path := if path.isEmpty && isSpecialScheme scheme then S "/" else path
              some { scheme := scheme, host := some host, path := path, rest := rest2 }
          else
            let (path, rest2) := spanUntil isPathEnd after
            some { scheme := scheme, host := none, path := path, rest := rest2 }

/-- Model of `Url::to_string`. -/
def urlToString (u : UrlT) : Str :=
  match u.host with
  | some h => u.scheme ++ S "://" ++ h ++ u.path ++ u.rest
  | none => u.scheme ++ S ":" ++ u.path ++ u.rest

/-- Directory part of a path: everything up to and including the last `/`
(used for relative-reference resolution). -/
def pathDir (p : Str) : Str :=
  match rfindChar p '/' with
  | some i => p.take (i + 1)
  | none => S "/"

/-- Simplified model of `Url::join` (RFC 3986 relative resolution without
dot-segment normalisation; sufficient for the references exercised here).
Join from a URL without a host (cannot-be-a-base) fails for non-absolute
references, as in the `url` crate. -/
def joinUrl (base : UrlT) (ref : Str) : Option UrlT :=
  match parseUrl ref with
  | some u => some u
  | none =>
    if (S "//").isPrefixOf ref then
      let hp := ref.drop 2
      let (host, rest1) := spanUntil isHostEnd hp
      if host.isEmpty then none
      else
        let (path, rest2) := spanUntil isPathEnd rest1
        let path := if path.isEmpty && isSpecialScheme base.scheme then S "/" else path
        some { scheme := base.scheme, host := some host, path := path, rest := rest2 }
    else
      match base.host with
      | none => none
      | some _ =>
        match ref with
        | [] => some base
        | c :: _ =>
          if c = '?' then some { base with rest := ref }
          else if c = '#' then some { base with rest := ref }
          else if c = '/' then
            let (path, rest2) := spanUntil isPathEnd ref
            some { base with path := path, rest := rest2 }
          else
            let (path, rest2) := spanUntil isPathEnd ref
            some { base with path := pathDir base.path ++ path, rest := rest2 }

/-! ## `crawler.rs`: `url_to_filename` -/

/-- The characters `url_to_filename` replaces by `_`
(`['/', '\\', ':', '*', '?', '"', '<', '>', '|', ' ']` in the source). -/
def invalidFilenameChar (c : Char) : Bool :=
  c == '/' || c == bsl || c == ':' || c == '*' || c == '?' ||
  c == dq || c == '<' || c == '>' || c == '|' || c == ' '

/-- Model of `url_to_filename` (crawler.rs): host (or `"unknown"`) and the
slash-trimmed path joined by `_`, each invalid filesystem character replaced
by `_`, the result capped at 100 characters.  (`filename.len()` counts bytes
and `chars().take(100)` counts characters; the two agree on ASCII data.) -/
def urlToFilename (u : UrlT) : Str :=
  let host := match u.host with
    | some h => h
    | none => S "unknown"
  let path := trimCharBoth '/' u.path
  let filename := host ++ S "_" ++ path
  let filename := filename.map (fun c => if invalidFilenameChar c then '_' else c)
  if filename.length > 100 then filename.take 100 else filename

/-! ## `processor.rs`: link rewriting, cleanup, combining -/

/-- The pattern `](` looked up by `process_links`. -/
def brkParen : Str := [']', '(']

/-- One iteration state of the `process_links` loop, with fuel.  Mirrors
`Processor::process_links` (processor.rs): scan for `](`, locate `[` before
it and `)` after it, parse the URL; when its host does not contain
`baseDomain`, replace every occurrence of the reconstructed link by its bare
text and restart the scan; otherwise continue after the `](`. -/
def processLinksAux (baseDomain : Str) : Nat → Str → Nat → Str
  | 0, result, _ => result
  | fuel + 1, result, linkStart =>
    match findSub (result.drop linkStart) brkParen with
    | none => result
    | some pos =>
      let realPos := linkStart + pos
      match rfindChar (result.take realPos) '[' with
      | none => processLinksAux baseDomain fuel result (realPos + 2)
      | some textStart =>
        let urlStart := realPos + 2
        match findChar (result.drop urlStart) ')' with
        | none => result
        | some e =>
          let urlEnd := urlStart + e
          let url := (result.take urlEnd).drop urlStart
          match parseUrl url with
          | some pu =>
            match pu.host with
            | some host =>
              if !containsSub host baseDomain then
                let text := (result.take realPos).drop (textStart + 1)
                let link := '[' :: text ++ brkParen ++ url ++ [')']
                processLinksAux baseDomain fuel (replaceAll link text result) 0
              else
                processLinksAux baseDomain fuel result (realPos + 2)
            | none => processLinksAux baseDomain fuel result (realPos + 2)
          | none => processLinksAux baseDomain fuel result (realPos + 2)

/-- Model of `Processor::process_links`.  The Rust loop terminates because
each replacement strictly shrinks the string and each skip advances the scan
position by two; `(length + 2)^2` bounds the number of iterations. -/
def processLinks (line : Str) (baseDomain : Str) : Str :=
  processLinksAux baseDomain ((line.length + 2) * (line.length + 2)) line 0

/-- The test `Processor::clean_content` applies to drop pure-image lines:
`line.trim().starts_with("![") && line.contains("](") && line.contains(")")`. -/
def isImageLine (line : Str) : Bool :=
  (S "![").isPrefixOf (line.dropWhile isWsp) &&
  containsSub line brkParen && containsSub line [')']

/-- Model of `Processor::clean_content`: drop image lines, rewrite links in
the remaining lines, terminating each kept line with a newline. -/
def cleanContent (content : Str) (baseDomain : Str) : Str :=
  ((rustLines content).map (fun line =>
    if isImageLine line then []
    else processLinks line baseDomain ++ [nl])).flatten

/-- A blank line in the sense of `final_cleanup`: `line.trim().is_empty()`. -/
def blankLine (l : Str) : Bool := (l.dropWhile isWsp).isEmpty

/-- The blank-line collapsing loop of `Processor::final_cleanup`: a line is
dropped when it and the previously kept line are both blank. -/
def collapseBlankAux : List Str → Bool → List Str
  | [], _ => []
  | l :: t, prevBlank =>
    if blankLine l && prevBlank then collapseBlankAux t prevBlank
    else l :: collapseBlankAux t (blankLine l)

/-- Blank-line collapsing stage of `final_cleanup` (lines rejoined by `\n`). -/
def collapseBlankLines (content : Str) : Str :=
  joinNl (collapseBlankAux (rustLines content) false)

/-- One iteration of `Processor::remove_html_tags` with fuel: find the next
`<tag`, find the following `>`; remove `<tag ... />` for a self-closing tag,
`<tag ...> ... </tag>` when a matching close exists, `<tag ...>` otherwise.
When no `>` follows the `<tag`, the Rust loop breaks, leaving the fragment. -/
def removeHtmlTagsAux (openTag closeTag : Str) : Nat → Str → Str
  | 0, result => result
  | fuel + 1, result =>
    match findSub result openTag with
    | none => result
    | some start =>
      match findChar (result.drop start) '>' with
      | none => result
      | some e =>
        let realEnd := start + e + 1
        if (S "/>").isSuffixOf ((result.take realEnd).drop start) then
          removeHtmlTagsAux openTag closeTag fuel (result.take start ++ result.drop realEnd)
        else
          match findSub (result.drop realEnd) closeTag with
          | some closeStart =>
            removeHtmlTagsAux openTag closeTag fuel
              (result.take start ++ result.drop (realEnd + closeStart + closeTag.length))
          | none =>
            removeHtmlTagsAux openTag closeTag fuel (result.take start ++ result.drop realEnd)

/-- Model of `Processor::remove_html_tags`.  Each iteration removes at least
one character, so `length + 1` fuel is enough. -/
def removeHtmlTags (content : Str) (tag : Str) : Str :=
  removeHtmlTagsAux ('<' :: tag) ('<' :: '/' :: tag ++ ['>']) (content.length + 1) content

/-- Model of `Processor::final_cleanup`: collapse consecutive blank lines,
then strip leftover `img`, `video` and `audio` tags, in that order. -/
def finalCleanup (content : Str) : Str :=
  removeHtmlTags (removeHtmlTags (removeHtmlTags (collapseBlankLines content)
    (S "img")) (S "video")) (S "audio")

/-- Model of `Processor::combine_files` on already-read file contents
`files = [(stem, content), ...]`: clean each file against the base domain,
prefix a heading derived from the file stem, then run the final cleanup.
Fails when the base URL does not parse or has no host. -/
def combineFiles (files : List (Str × Str)) (baseUrl : Str) : Option Str :=
  match parseUrl baseUrl with
  | none => none
  | some pu =>
    match pu.host with
    | none => none
    | some baseDomain =>
      let combined := (files.map (fun f =>
        [nl, nl, '#', '#', ' '] ++ f.1 ++ [nl, nl] ++ cleanContent f.2 baseDomain)).flatten
      some (finalCleanup combined)

/-! ## `crawler.rs`: `extract_links` and the media part of `download_images` -/

/-- The pattern `href="` (double quote included) that `extract_links` scans for. -/
def hrefPat : Str := S "href=" ++ [dq]

/-- Per-line extraction of `extract_links` (crawler.rs): the first
`href="..."` attribute of the line; fragment-only, `javascript:` and
`mailto:` targets are skipped; the rest are resolved against the base URL and
the resolved URL is kept as a string. -/
def extractLinksLine (base : UrlT) (line : Str) : List Str :=
  match findSub line hrefPat with
  | none => []
  | some start =>
    let after := line.drop (start + 6)
    match findChar after dq with
    | none => []
    | some e =>
      let href := after.take e
      if (S "#").isPrefixOf href || (S "javascript:").isPrefixOf href ||
          (S "mailto:").isPrefixOf href then []
      else
        match joinUrl base href with
        | some full => [urlToString full]
        | none => []

/-- Model of `extract_links`: per-line scan over the HTML. -/
def extractLinks (html : Str) (base : UrlT) : List Str :=
  ((rustLines html).map (extractLinksLine base)).flatten

/-- The pattern `src="`. -/
def srcDq : Str := S "src=" ++ [dq]

/-- The pattern `src='`. -/
def srcSq : Str := S "src=" ++ [sq]

/-- Per-line image-source extraction of `download_images` (crawler.rs): on a
line containing `<img` and `src=`, try `src="..."`, then `src='...'`, then an
unquoted `src=...` ending at whitespace or `>`. -/
def imgSrcsLine (line : Str) : List Str :=
  if !(containsSub line (S "<img") && containsSub line (S "src=")) then []
  else
    match findSub line srcDq with
    | some start =>
      match findChar (line.drop (start + 5)) dq with
      | some e => [(line.drop (start + 5)).take e]
      | none => []
    | none =>
      match findSub line srcSq with
      | some start =>
        match findChar (line.drop (start + 5)) sq with
        | some e => [(line.drop (start + 5)).take e]
        | none => []
      | none =>
        match findSub line (S "src=") with
        | some start =>
          let part := line.drop (start + 4)
          match findIdxP part (fun c => isWsp c || c == '>') with
          | some e => [part.take e]
          | none => []
        | none => []

/-- All image sources of an HTML document, line by line. -/
def imgSrcs (html : Str) : List Str :=
  ((rustLines html).map imgSrcsLine).flatten

/-- Resolution of one image reference in `download_images`: absolute parse
first, then join against the page URL. -/
def resolveImage (pageUrl : UrlT) (src : Str) : Option UrlT :=
  match parseUrl src with
  | some u => some u
  | none => joinUrl pageUrl src

/-- Extension chosen by `download_images`:
`full_url.path().split('.').last().unwrap_or("jpg")`. -/
def imageExt (u : UrlT) : Str :=
  ((splitOnChar '.' u.path).getLast?).getD (S "jpg")

/-- The media file path `download_images` derives for an image URL. -/
def mediaFilePath (mediaDir : Str) (u : UrlT) : Str :=
  mediaDir ++ [ '/' ] ++ urlToFilename u ++ ['.'] ++ imageExt u

/-- Environment for a `download_images` run: the content type the server
would answer for a URL (`none` models a failed request). -/
def RespEnv : Type := UrlT → Option Str

/-- The per-image body of the `download_images` loop, folded over the
resolved image list.  State: issued requests and the set of files on disk.
A URL whose derived path exists is skipped before any request; a successful
response is persisted only when its content type starts with `image/`. -/
def downloadImagesGo (mediaDir : Str) (resp : RespEnv) :
    List UrlT → List UrlT → List Str → List UrlT × List Str
  | [], reqs, fs => (reqs, fs)
  | u :: rest, reqs, fs =>
    let path := mediaFilePath mediaDir u
    if path ∈ fs then downloadImagesGo mediaDir resp rest reqs fs
    else
      let reqs := reqs ++ [u]
      match resp u with
      | none => downloadImagesGo mediaDir resp rest reqs fs
      | some contentType =>
        if (S "image/").isPrefixOf contentType then
          downloadImagesGo mediaDir resp rest reqs (path :: fs)
        else
          downloadImagesGo mediaDir resp rest reqs fs

/-- Model of `download_images` (network and filesystem effects): extract the
image sources, resolve each, then run the download loop over the resolvable
ones against the files `fs` already on disk.  Returns the requests issued
and the resulting filesystem. -/
def downloadImages (pageUrl : UrlT) (html : Str) (mediaDir : Str)
    (resp : RespEnv) (fs : List Str) : List UrlT × List Str :=
  downloadImagesGo mediaDir resp
    ((imgSrcs html).filterMap (resolveImage pageUrl)) [] fs

/-! ## `lib.rs`: entry model and the `run_entry` retry orchestrator -/

/-- `CrawlStatus` (lib.rs). -/
inductive CrawlStatus where
  | enabled
  | disabled
  | failed
deriving DecidableEq, Repr

/-- `UrlEntry` (lib.rs); timestamps abstracted to tick counters. -/
structure UrlEntry where
  url : Str
  name : Str
  last_download : Option Nat
  last_try : Option Nat
  last_fail : Option Nat
  crawl_depth : Nat
  status : CrawlStatus
  version : Nat
deriving DecidableEq, Repr

/-- Where an attempt of `process_with_retry` fails, if anywhere.  The crawl
stage (`Crawler::process_entry`) bumps `version` on its own success, so a
failure in a later stage still leaves the bump in place. -/
inductive AttemptOutcome where
  | crawlFail (err : Nat)
  | convertFail (err : Nat)
  | processFail (err : Nat)
  | ok
deriving DecidableEq, Repr

/-- Model of one `process_with_retry` call (lib.rs): `Crawler::process_entry`
sets `last_try` and, when the crawl succeeds, `last_download` and
`version + 1` (crawler.rs lines 482-486); conversion and combining follow.
Returns the updated entry and `some err` when the attempt failed. -/
def processWithRetry (e : UrlEntry) (o : AttemptOutcome) (now : Nat) :
    UrlEntry × Option Nat :=
  let e := { e with last_try := some now }
  match o with
  | .crawlFail err => (e, some err)
  | .convertFail err =>
    ({ e with last_download := some now, version := e.version + 1 }, some err)
  | .processFail err =>
    ({ e with last_download := some now, version := e.version + 1 }, some err)
  | .ok =>
    ({ e with last_download := some now, version := e.version + 1 }, none)

/-- Observable events of one `run_entry` call. -/
inductive REvent where
  | attempt (n : Nat)
  | sleepSec (d : Nat)
  | markFailed
deriving DecidableEq, Repr

/-- Result of `run_entry`: the produced file is abstracted away; failure
carries the retry count reported and the last error, as in the final
`anyhow!("Failed to process entry after {} retries: {}", ...)`. -/
inductive RunResult where
  | ok
  | err (retries : Nat) (lastError : Option Nat)
deriving DecidableEq, Repr

/-- The retry delay chosen in `run_entry` after the attempt with 0-based
index `k`: `retry_delay[k]` when in range, else the 60-second default. -/
def retryDelayAt (retryDelay : List Nat) (k : Nat) : Nat :=
  match retryDelay.get? k with
  | some d => d
  | none => 60

/-- The `while retry_count < config.retry_count && !success` loop of
`run_entry`: attempt, and on failure record `last_fail`, sleep the
configured delay, and continue with the next attempt index.  `outcomes k`
is the result of attempt index `k` (the environment).  Returns the trace of
events, the final entry, and `some lastError` when the loop exhausted. -/
def runEntryLoop (retryDelay : List Nat) (outcomes : Nat → AttemptOutcome) :
    Nat → Nat → UrlEntry → Option Nat → List REvent × UrlEntry × Option (Option Nat)
  | 0, _, e, lastError => ([], e, some lastError)
  | remaining + 1, k, e, _ =>
    let step := processWithRetry e (outcomes k) k
    match step.2 with
    | none =>
      -- success branch of `run_entry`: second `version` bump, status kept Enabled
      ([REvent.attempt (k + 1)],
       { step.1 with last_download := some k, status := .enabled,
                     version := step.1.version + 1 },
       none)
    | some err =>
      let e2 := { step.1 with last_fail := some k }
      let d := retryDelayAt retryDelay k
      let rec2 := runEntryLoop retryDelay outcomes remaining (k + 1) e2 (some err)
      (REvent.attempt (k + 1) :: REvent.sleepSec d :: rec2.1, rec2.2.1, rec2.2.2)

/-- Model of `run_entry` (lib.rs): reject disabled entries, run the retry
loop, and on exhaustion set the status to `Failed` and surface the last
error together with the number of attempts made. -/
def runEntry (retryCount : Nat) (retryDelay : List Nat)
    (outcomes : Nat → AttemptOutcome) (e : UrlEntry) :
    List REvent × UrlEntry × RunResult :=
  if e.status = .disabled then ([], e, .err 0 none)
  else
    let r := runEntryLoop retryDelay outcomes retryCount 0 e none
    match r.2.2 with
    | none => (r.1, r.2.1, .ok)
    | some lastError =>
      (r.1 ++ [REvent.markFailed], { r.2.1 with status := .failed },
       .err retryCount lastError)

/-- Attempt events in a trace. -/
def countAttempts (tr : List REvent) : Nat :=
  tr.countP (fun ev => match ev with | .attempt _ => true | _ => false)

/-- The sleep durations occurring strictly before the first `attempt n`
event of a trace (used to state the C2 scenario ordering). -/
def sleepsBeforeAttempt (n : Nat) : List REvent → List Nat
  | [] => []
  | REvent.attempt m :: t =>
    if m = n then [] else sleepsBeforeAttempt n t
  | REvent.sleepSec d :: t => d :: sleepsBeforeAttempt n t
  | REvent.markFailed :: t => sleepsBeforeAttempt n t

/-- An entry as `run_entry` leaves it after one fully successful run
(every stage of the first attempt succeeds). -/
def successfulRun (retryCount : Nat) (retryDelay : List Nat) (e : UrlEntry) : UrlEntry :=
  (runEntry retryCount retryDelay (fun _ => .ok) e).2.1

/-- `n` consecutive fully successful runs. -/
def successfulRunIter (retryCount : Nat) (retryDelay : List Nat) :
    Nat → UrlEntry → UrlEntry
  | 0, e => e
  | n + 1, e => successfulRunIter retryCount retryDelay n (successfulRun retryCount retryDelay e)

/-! ## `crawler.rs`: the `AsyncSpider` crawl loop as a small-step system

`AsyncSpider::crawl` runs a dispatcher loop (pop the queue, check the
visited set, spawn a worker) and worker tasks (insert into the visited set,
fetch, and — under one lock over `links`, `queue` and `visited` — enqueue
the extracted links).  The model below is an interleaving semantics of
exactly these critical sections; the semaphore only bounds how many workers
run at once and is dropped (more interleavings, so safety proofs carry
over).  Page bodies are adversarial: the links extracted by a finishing
worker are an arbitrary list supplied by the step. -/

/-- The fields of `DoclingConfig` read by `AsyncSpider::new` and
`Crawler::process_entry`. -/
structure DoclingConfig where
  delay_between_request_in_ms : Nat
  max_concurrent_requests : Nat
  user_agent : Str
  respect_robots_txt : Bool
  retry_count : Nat
  retry_delay : List Nat
  default_deep : Nat
deriving DecidableEq, Repr

/-- The crawl parameters `AsyncSpider::new` derives from the entry URL and
the configuration (crawler.rs lines 104-122).  `maxDepth` is
`config.default_deep`; nothing of the entry except its `url` is read. -/
structure SpParams where
  seed : Str
  baseUrl : Option UrlT
  delay : Nat
  maxDepth : Nat
  respectRobots : Bool
deriving DecidableEq, Repr

/-- `AsyncSpider::new` for a given entry URL. -/
def mkSpParams (url : Str) (config : DoclingConfig) : SpParams :=
  { seed := url
    baseUrl := parseUrl url
    delay := config.delay_between_request_in_ms
    maxDepth := config.default_deep
    respectRobots := config.respect_robots_txt }

/-- The spider `Crawler::process_entry` constructs for an entry
(crawler.rs line 404: `AsyncSpider::new(&entry.url, &self.config)`). -/
def entrySpParams (entry : UrlEntry) (config : DoclingConfig) : SpParams :=
  mkSpParams entry.url config

/-- Shared state of one crawl run: the frontier queue, the `links` set, the
`visited` set, the spawned-but-not-yet-started workers, the running workers,
and the trace of fetched URLs (in fetch-issue order). -/
structure SpState where
  queue : List (Str × Nat)
  linkSet : List Str
  visited : List Str
  pending : List (Str × Nat)
  running : List (Str × Nat)
  trace : List Str
deriving DecidableEq, Repr

/-- Initial state: the seed at depth 0 (crawler.rs line 98). -/
def initSpState (p : SpParams) : SpState :=
  { queue := [(p.seed, 0)], linkSet := [], visited := [],
    pending := [], running := [], trace := [] }

/-- The enqueue block a finishing worker executes under the `links`/`queue`/
`visited` locks (crawler.rs lines 192-214): skip links already visited or
already in the link set, skip unparsable links, skip links whose host
differs from the base URL host, and otherwise add the link to the link set
and push it at `depth + 1`. -/
def enqueueLinks (baseHost : Option (Option Str)) (d : Nat) (visited : List Str) :
    List Str → List Str × List (Str × Nat) → List Str × List (Str × Nat)
  | [], st => st
  | link :: rest, (ls, q) =>
    if link ∈ visited ∨ link ∈ ls then enqueueLinks baseHost d visited rest (ls, q)
    else
      match parseUrl link with
      | some pl =>
        if some pl.host = baseHost then
          enqueueLinks baseHost d visited rest (link :: ls, q ++ [(link, d + 1)])
        else
          enqueueLinks baseHost d visited rest (ls, q)
      | none => enqueueLinks baseHost d visited rest (ls, q)

/-- The base host compared against at enqueue time
(`parsed_link.host() == base_url.host()`). -/
def spBaseHost (p : SpParams) : Option (Option Str) :=
  p.baseUrl.map (·.host)

/-- One interleaved step of the crawl loop.  `dispatchHit`/`dispatchMiss`
are the dispatcher popping the queue and checking `visited` (lines 150-163);
`start` is a spawned worker inserting into `visited` and issuing its fetch
(lines 178-185); `finishOk` is a worker whose fetch succeeded running the
guarded enqueue block (lines 186-215) with adversarial extracted `links`;
`finishErr` is a worker whose fetch failed (line 224-226). -/
inductive SpStep (p : SpParams) : SpState → SpState → Prop
  | dispatchHit (s : SpState) (u : Str) (d : Nat) (rest : List (Str × Nat))
      (hq : s.queue = (u, d) :: rest) (hv : u ∈ s.visited) :
      SpStep p s { s with queue := rest }
  | dispatchMiss (s : SpState) (u : Str) (d : Nat) (rest : List (Str × Nat))
      (hq : s.queue = (u, d) :: rest) (hv : u ∉ s.visited) :
      SpStep p s { s with queue := rest, pending := s.pending ++ [(u, d)] }
  | start (s : SpState) (u : Str) (d : Nat)
      (hp : (u, d) ∈ s.pending) :
      SpStep p s { s with pending := s.pending.erase (u, d),
                          visited := u :: s.visited,
                          running := s.running ++ [(u, d)],
                          trace := s.trace ++ [u] }
  | finishOk (s : SpState) (u : Str) (d : Nat) (links : List Str)
      (hr : (u, d) ∈ s.running) (hd : d < p.maxDepth) :
      SpStep p s { s with running := s.running.erase (u, d),
                          linkSet := (enqueueLinks (spBaseHost p) d s.visited links
                            (s.linkSet, s.queue)).1,
                          queue := (enqueueLinks (spBaseHost p) d s.visited links
                            (s.linkSet, s.queue)).2 }
  | finishNoExtract (s : SpState) (u : Str) (d : Nat)
      (hr : (u, d) ∈ s.running) :
      SpStep p s { s with running := s.running.erase (u, d) }

/-- States reachable in one crawl run. -/
inductive SpReach (p : SpParams) : SpState → Prop
  | init : SpReach p (initSpState p)
  | step {s t : SpState} : SpReach p s → SpStep p s t → SpReach p t

/-! ## Predicates and sample data used in the statements -/

/-- No two consecutive lines are both blank. -/
def noConsecBlank (ls : List Str) : Prop :=
  List.Chain' (fun a b => ¬(blankLine a = true ∧ blankLine b = true)) ls

/-- Every occurrence of `<tag` in `s` has no `>` anywhere at or after it:
the only open-tag fragments `remove_html_tags` can leave behind are dangling
ones that no later `>` could ever close. -/
def noClosableFrag (tag : Str) (s : Str) : Prop :=
  ∀ i, ('<' :: tag).isPrefixOf (s.drop i) = true → '>' ∉ s.drop i

/-- A string free of the four Markdown link delimiters. -/
def bracketFree (s : Str) : Prop :=
  '[' ∉ s ∧ ']' ∉ s ∧ '(' ∉ s ∧ ')' ∉ s

/-- A well-formed single-link line: `pre [t](u) post`. -/
def mkLinkLine (pre t u post : Str) : Str :=
  pre ++ '[' :: t ++ ']' :: '(' :: u ++ ')' :: post

/-- `DoclingConfig::default()` (lib.rs lines 111-132), paths omitted. -/
def defaultConfig : DoclingConfig :=
  { delay_between_request_in_ms := 500
    max_concurrent_requests := 1
    user_agent := S "mi4uling-docling-bot"
    respect_robots_txt := true
    retry_count := 3
    retry_delay := [10, 40, 200]
    default_deep := 1 }

/-- A sample entry as `UrlEntry::new` builds it. -/
def sampleEntry : UrlEntry :=
  { url := S "https://example.com/"
    name := S "example"
    last_download := none
    last_try := none
    last_fail := none
    crawl_depth := 1
    status := .enabled
    version := 1 }

/-- Crawl parameters of the sample entry under the default configuration. -/
def sampleParams : SpParams := entrySpParams sampleEntry defaultConfig

/-- An environment where every attempt fails in the crawl stage. -/
def failOutcomes : Nat → AttemptOutcome := fun k => .crawlFail k

/-- The combined safety invariant of the crawl loop, from which uniqueness
of fetches follows: the queued/pending URLs are mutually distinct, none of
them is visited, each of them is registered in the link set (or is the
seed); before the seed is visited nothing runs and the seed is the only
queued or pending item; the fetch trace is duplicate-free and visited. -/
def spInv (p : SpParams) (s : SpState) : Prop :=
  (s.queue.map Prod.fst ++ s.pending.map Prod.fst).Nodup ∧
  (∀ u ∈ s.queue.map Prod.fst ++ s.pending.map Prod.fst, u ∉ s.visited) ∧
  (∀ u ∈ s.queue.map Prod.fst ++ s.pending.map Prod.fst, u ∈ s.linkSet ∨ u = p.seed) ∧
  (p.seed ∈ s.visited ∨
    (s.running = [] ∧ s.linkSet = [] ∧
      ((s.queue = [(p.seed, 0)] ∧ s.pending = []) ∨
       (s.queue = [] ∧ s.pending = [(p.seed, 0)])))) ∧
  s.trace.Nodup ∧
  (∀ u ∈ s.trace, u ∈ s.visited)

/-- The depth-zero invariant: with `maxDepth = 0` nothing but the seed at
depth 0 ever enters the system and the link set stays empty. -/
def spDepthZeroInv (p : SpParams) (s : SpState) : Prop :=
  (∀ x ∈ s.queue, x = (p.seed, 0)) ∧
  (∀ x ∈ s.pending, x = (p.seed, 0)) ∧
  (∀ x ∈ s.running, x = (p.seed, 0)) ∧
  s.linkSet = [] ∧
  (∀ u ∈ s.trace, u = p.seed)

/-- `https://example.com//a//b` parsed. -/
def urlDupSep : UrlT :=
  { scheme := S "https", host := some (S "example.com"), path := S "//a//b", rest := [] }

/-- `https://example.com/` parsed. -/
def urlRootPath : UrlT :=
  { scheme := S "https", host := some (S "example.com"), path := S "/", rest := [] }

/-- `https://example.com/a` parsed. -/
def urlPathA : UrlT :=
  { scheme := S "https", host := some (S "example.com"), path := S "/a", rest := [] }

/-- `http://example.com/a?q=1` parsed. -/
def urlPathAQ : UrlT :=
  { scheme := S "http", host := some (S "example.com"), path := S "/a", rest := S "?q=1" }

/-! # Theorems -/

/-- C8 counterexample.  `url_to_filename` does not collapse duplicate
separators: the path `//a//b` yields `example.com_a__b`, in which the
doubled separator `__` survives; and an empty (all-slash) path yields
`example.com_` rather than any sentinel name (the `"unknown"` fallback is
for a missing host, not an empty path). -/
theorem c8_counterexample :
    urlToFilename urlDupSep = S "example.com_a__b" ∧
    containsSub (S "example.com_a__b") (S "__") = true ∧
    urlToFilename urlRootPath = S "example.com_" := by
  refine ⟨by decide, by decide, by decide⟩

/-- C8 (amended): `url_to_filename` is a pure function of the URL's host and
path that joins them with `_`, replaces each invalid filesystem character
individually by `_` (duplicate separators are not collapsed), caps the
result at 100 characters, and substitutes `unknown` for a missing host; an
empty trimmed path yields the sanitised host followed by a bare `_` (no
sentinel name). -/
theorem c8_filename_properties :
    ∀ u v : UrlT,
      (urlToFilename u).length ≤ 100 ∧
      (∀ c ∈ urlToFilename u, invalidFilenameChar c = false) ∧
      (u.host = v.host → u.path = v.path → urlToFilename u = urlToFilename v) ∧
      (∀ h, u.host = some h → trimCharBoth '/' u.path = [] →
        urlToFilename u =
          (let f := (h ++ S "_").map fun c => if invalidFilenameChar c then '_' else c
           if f.length > 100 then f.take 100 else f)) := by
  intro u v
  refine ⟨?_, ?_, ?_, ?_⟩
  · simp only [urlToFilename]
    split
    · simp
    · omega
  · intro c hc
    simp only [urlToFilename] at hc
    have hmem : c ∈ ((match u.host with
        | some h => h
        | none => S "unknown") ++ S "_" ++ trimCharBoth '/' u.path).map
          (fun c => if invalidFilenameChar c then '_' else c) := by
      split at hc
      · exact (List.take_sublist _ _).mem hc
      · exact hc
    rcases List.mem_map.mp hmem with ⟨x, _, rfl⟩
    by_cases hx : invalidFilenameChar x = true
    · simp only [hx, if_true]
      decide
    · simp only [Bool.not_eq_true] at hx
      simp [hx]
  · intro h1 h2
    simp only [urlToFilename, h1, h2]
  · intro h hhost hemp
    simp only [urlToFilename, hhost, hemp, List.append_nil]

/-- C8 witness: the amended theorem applied to two concrete URLs agreeing on
host and path, and to a URL with an all-slash path. -/
theorem c8_witness :
    (urlToFilename urlPathA = urlToFilename urlPathAQ) ∧
    urlToFilename urlRootPath =
      (let f := (S "example.com" ++ S "_").map
          fun c => if invalidFilenameChar c then '_' else c
       if f.length > 100 then f.take 100 else f) := by
  constructor
  · exact (c8_filename_properties urlPathA urlPathAQ).2.2.1 rfl rfl
  · exact (c8_filename_properties urlRootPath urlRootPath).2.2.2
      (S "example.com") rfl (by decide)

/-- C10: the crawl parameters `Crawler::process_entry` hands to
`AsyncSpider::new` depend only on the entry's `url` and the configuration:
`maxDepth` is `config.default_deep`, the entry's own `crawl_depth` field is
never read, and two entries differing only in `crawl_depth` induce exactly
the same reachable crawl states. -/
theorem c10_crawl_depth_unused :
    ∀ (config : DoclingConfig) (e : UrlEntry) (k : Nat),
      entrySpParams { e with crawl_depth := k } config = entrySpParams e config ∧
      (entrySpParams e config).maxDepth = config.default_deep ∧
      (∀ s, SpReach (entrySpParams { e with crawl_depth := k } config) s ↔
            SpReach (entrySpParams e config) s) := by
  intro config e k
  exact ⟨rfl, rfl, fun s => Iff.rfl⟩

/-- C1 counterexample: one fully successful `run_entry` on an entry with
`version = 1` leaves `version = 3`, not `2`: the crawl stage
(`Crawler::process_entry`, crawler.rs line 484) and the orchestrator success
branch (lib.rs line 404) each increment `version`, so a successful
completion increases it by exactly 2, not 1. -/
theorem c1_counterexample :
    (runEntry 3 [10, 40, 200] (fun _ => .ok) sampleEntry).2.1.version = 3 ∧
    sampleEntry.version = 1 ∧ (3 : Nat) ≠ 1 + 1 := by
  refine ⟨by decide, by decide, by decide⟩

/-- C1 (amended): every successful completion of `run_entry` increases the
entry's `version` by exactly 2 (one increment in the crawl stage, one in the
orchestrator's success branch), so after `N` fully successful runs the
version equals the initial version plus `2 * N`, the status staying
`Enabled`. -/
theorem c1_version_increases_by_two :
    ∀ (n retryCount : Nat) (retryDelay : List Nat) (e : UrlEntry),
      e.status = .enabled → 0 < retryCount →
      (successfulRunIter retryCount retryDelay n e).version = e.version + 2 * n ∧
      (successfulRunIter retryCount retryDelay n e).status = .enabled := by
  intro n
  induction n with
  | zero => intro rc rd e hs _; simpa [successfulRunIter] using hs
  | succ m ih =>
    intro rc rd e hs hrc
    obtain ⟨r, rfl⟩ : ∃ r, rc = r + 1 := ⟨rc - 1, by omega⟩
    have hrun : (successfulRun (r + 1) rd e).version = e.version + 2 ∧
        (successfulRun (r + 1) rd e).status = .enabled := by
      simp [successfulRun, runEntry, hs, runEntryLoop, processWithRetry]
    have := ih (r + 1) rd (successfulRun (r + 1) rd e) hrun.2 hrc
    simp only [successfulRunIter]
    refine ⟨?_, this.2⟩
    rw [this.1, hrun.1]
    ring

/-- C1 witness: the amended theorem applied to two successful runs of the
sample entry. -/
theorem c1_witness :
    (successfulRunIter 3 [10, 40, 200] 2 sampleEntry).version =
      sampleEntry.version + 2 * 2 ∧
    (successfulRunIter 3 [10, 40, 200] 2 sampleEntry).status = .enabled :=
  c1_version_increases_by_two 2 3 [10, 40, 200] sampleEntry rfl (by decide)

/-- Hard ceiling of the retry loop: the loop with `r` remaining iterations
issues at most `r` attempts. -/
theorem runEntryLoop_attempts_le (rd : List Nat) (oc : Nat → AttemptOutcome) :
    ∀ (r k : Nat) (e : UrlEntry) (le : Option Nat),
      countAttempts (runEntryLoop rd oc r k e le).1 ≤ r := by
  intro r
  induction r with
  | zero => intro k e le; simp [runEntryLoop, countAttempts]
  | succ m ih =>
    intro k e le
    cases hoc : oc k with
    | ok =>
      simp [runEntryLoop, processWithRetry, hoc, countAttempts]
    | crawlFail err =>
      simp only [runEntryLoop, processWithRetry, hoc, countAttempts,
        List.countP_cons]
      simp only [countAttempts] at ih
      simp
      exact ih _ _ _
    | convertFail err =>
      simp only [runEntryLoop, processWithRetry, hoc, countAttempts,
        List.countP_cons]
      simp only [countAttempts] at ih
      simp
      exact ih _ _ _
    | processFail err =>
      simp only [runEntryLoop, processWithRetry, hoc, countAttempts,
        List.countP_cons]
      simp only [countAttempts] at ih
      simp
      exact ih _ _ _

/-- C2 counterexample: with `retry_delay = [10, 40, 200]` and
`retry_count = 4`, all attempts failing, the delay before the 4th attempt is
the configured 200s; the 60-second default delay is slept after the 4th
(last) attempt, before the entry is marked `Failed` — not before the 4th
attempt as the claim states. -/
theorem c2_counterexample :
    (runEntry 4 [10, 40, 200] failOutcomes sampleEntry).1 =
      [REvent.attempt 1, REvent.sleepSec 10, REvent.attempt 2,
       REvent.sleepSec 40, REvent.attempt 3, REvent.sleepSec 200,
       REvent.attempt 4, REvent.sleepSec 60, REvent.markFailed] ∧
    sleepsBeforeAttempt 4 (runEntry 4 [10, 40, 200] failOutcomes sampleEntry).1 =
      [10, 40, 200] ∧
    60 ∉ sleepsBeforeAttempt 4 (runEntry 4 [10, 40, 200] failOutcomes sampleEntry).1 := by
  refine ⟨by decide, by decide, by decide⟩

/-- C2 (amended): with `retry_delay = [10, 40, 200]` and `retry_count = 4`,
all attempts failing, the orchestrator sleeps 10s, 40s and 200s between the
four attempts, then the 60-second default delay after the 4th failed
attempt, then sets the status to `Failed` and surfaces the last error with
the attempt count; in general the number of attempts never exceeds the
configured retry count. -/
theorem c2_retry_schedule :
    ((runEntry 4 [10, 40, 200] failOutcomes sampleEntry).1 =
      [REvent.attempt 1, REvent.sleepSec 10, REvent.attempt 2,
       REvent.sleepSec 40, REvent.attempt 3, REvent.sleepSec 200,
       REvent.attempt 4, REvent.sleepSec 60, REvent.markFailed] ∧
     (runEntry 4 [10, 40, 200] failOutcomes sampleEntry).2.1.status = .failed ∧
     (runEntry 4 [10, 40, 200] failOutcomes sampleEntry).2.2 = .err 4 (some 3)) ∧
    ∀ (retryCount : Nat) (retryDelay : List Nat)
      (outcomes : Nat → AttemptOutcome) (e : UrlEntry),
      countAttempts (runEntry retryCount retryDelay outcomes e).1 ≤ retryCount := by
  constructor
  · refine ⟨by decide, by decide, by decide⟩
  · intro retryCount retryDelay outcomes e
    by_cases hd : e.status = .disabled
    · simp [runEntry, hd, countAttempts]
    · simp only [runEntry, if_neg hd]
      cases hr : (runEntryLoop retryDelay outcomes retryCount 0 e none).2.2 with
      | none => exact runEntryLoop_attempts_le retryDelay outcomes retryCount 0 e none
      | some lastError =>
        simp only [countAttempts, List.countP_append]
        have := runEntryLoop_attempts_le retryDelay outcomes retryCount 0 e none
        simp only [countAttempts] at this
        simpa using this

/-- The filesystem only grows during the `download_images` loop. -/
theorem downloadImagesGo_fs_grows (mediaDir : Str) (resp : RespEnv) :
    ∀ (us : List UrlT) (reqs : List UrlT) (fs : List Str) (x : Str),
      x ∈ fs → x ∈ (downloadImagesGo mediaDir resp us reqs fs).2 := by
  intro us
  induction us with
  | nil => intro reqs fs x hx; simpa [downloadImagesGo] using hx
  | cons v rest ih =>
    intro reqs fs x hx
    by_cases hv : mediaFilePath mediaDir v ∈ fs
    · simpa [downloadImagesGo, hv] using ih reqs fs x hx
    · cases hresp : resp v with
      | none => simpa [downloadImagesGo, hv, hresp] using ih _ fs x hx
      | some ct =>
        by_cases himg : (S "image/").isPrefixOf ct = true
        · simpa [downloadImagesGo, hv, hresp, himg] using
            ih _ (mediaFilePath mediaDir v :: fs) x (List.mem_cons_of_mem _ hx)
        · simpa [downloadImagesGo, hv, hresp, himg] using ih _ fs x hx

/-- Every request the `download_images` loop issues is either inherited from
the accumulator or is for a URL whose derived file path was not on disk. -/
theorem downloadImagesGo_req_new (mediaDir : Str) (resp : RespEnv) :
    ∀ (us : List UrlT) (reqs : List UrlT) (fs : List Str) (u : UrlT),
      u ∈ (downloadImagesGo mediaDir resp us reqs fs).1 →
      u ∈ reqs ∨ mediaFilePath mediaDir u ∉ fs := by
  intro us
  induction us with
  | nil => intro reqs fs u hu; simp [downloadImagesGo] at hu; exact Or.inl hu
  | cons v rest ih =>
    intro reqs fs u hu
    by_cases hv : mediaFilePath mediaDir v ∈ fs
    · simp only [downloadImagesGo, if_pos hv] at hu
      exact ih reqs fs u hu
    · have step : ∀ fs2 : List Str, (∀ x ∈ fs, x ∈ fs2) →
          u ∈ (downloadImagesGo mediaDir resp rest (reqs ++ [v]) fs2).1 →
          u ∈ reqs ∨ mediaFilePath mediaDir u ∉ fs := by
        intro fs2 hsub hu2
        rcases ih (reqs ++ [v]) fs2 u hu2 with hin | hout
        · rcases List.mem_append.mp hin with h | h
          · exact Or.inl h
          · have : u = v := by simpa using h
            subst this
            exact Or.inr hv
        · exact Or.inr fun hmem => hout (hsub _ hmem)
      cases hresp : resp v with
      | none =>
        simp only [downloadImagesGo, if_neg hv, hresp] at hu
        exact step fs (fun x hx => hx) hu
      | some ct =>
        by_cases himg : (S "image/").isPrefixOf ct = true
        · simp only [downloadImagesGo, if_neg hv, hresp, if_pos himg] at hu
          exact step _ (fun x hx => List.mem_cons_of_mem _ hx) hu
        · simp only [downloadImagesGo, if_neg hv, hresp, if_neg himg] at hu
          exact step fs (fun x hx => hx) hu

/-- When every derived file path is already on disk, the loop issues no new
request at all. -/
theorem downloadImagesGo_all_skipped (mediaDir : Str) (resp : RespEnv) :
    ∀ (us : List UrlT) (reqs : List UrlT) (fs : List Str),
      (∀ u ∈ us, mediaFilePath mediaDir u ∈ fs) →
      (downloadImagesGo mediaDir resp us reqs fs).1 = reqs := by
  intro us
  induction us with
  | nil => intro reqs fs _; simp [downloadImagesGo]
  | cons v rest ih =>
    intro reqs fs hall
    have hv := hall v (List.mem_cons_self v rest)
    simp only [downloadImagesGo, if_pos hv]
    exact ih reqs fs fun u hu => hall u (List.mem_cons_of_mem _ hu)

/-- When every response is a successful image response, the loop leaves the
derived file path of every processed URL on disk. -/
theorem downloadImagesGo_all_written (mediaDir : Str) (resp : RespEnv)
    (himg : ∀ v, ∃ ct, resp v = some ct ∧ (S "image/").isPrefixOf ct = true) :
    ∀ (us : List UrlT) (reqs : List UrlT) (fs : List Str) (u : UrlT),
      u ∈ us → mediaFilePath mediaDir u ∈ (downloadImagesGo mediaDir resp us reqs fs).2 := by
  intro us
  induction us with
  | nil => intro reqs fs u hu; cases hu
  | cons v rest ih =>
    intro reqs fs u hu
    rcases List.mem_cons.mp hu with rfl | hmem
    · by_cases hv : mediaFilePath mediaDir u ∈ fs
      · simp only [downloadImagesGo, if_pos hv]
        exact downloadImagesGo_fs_grows mediaDir resp rest reqs fs _ hv
      · rcases himg u with ⟨ct, hct, hpref⟩
        simp only [downloadImagesGo, if_neg hv, hct, if_pos hpref]
        exact downloadImagesGo_fs_grows mediaDir resp rest _ _ _
          (List.mem_cons_self _ _)
    · by_cases hv : mediaFilePath mediaDir v ∈ fs
      · simp only [downloadImagesGo, if_pos hv]
        exact ih reqs fs u hmem
      · rcases himg v with ⟨ct, hct, hpref⟩
        simp only [downloadImagesGo, if_neg hv, hct, if_pos hpref]
        exact ih _ _ u hmem

/-- C7: the media downloader never requests a URL whose derived file path is
already on disk, and — when the server answers every request with a
successful image response — a second run of `download_images` over the same
unchanged page issues no request at all. -/
theorem c7_media_skip_existing :
    ∀ (pageUrl : UrlT) (html : Str) (mediaDir : Str) (resp : RespEnv)
      (fs : List Str) (u : UrlT),
      (mediaFilePath mediaDir u ∈ fs →
        u ∉ (downloadImages pageUrl html mediaDir resp fs).1) ∧
      ((∀ v, ∃ ct, resp v = some ct ∧ (S "image/").isPrefixOf ct = true) →
        (downloadImages pageUrl html mediaDir resp
          (downloadImages pageUrl html mediaDir resp fs).2).1 = []) := by
  intro pageUrl html mediaDir resp fs u
  constructor
  · intro hmem hu
    rcases downloadImagesGo_req_new mediaDir resp _ [] fs u hu with h | h
    · cases h
    · exact h hmem
  · intro himg
    exact downloadImagesGo_all_skipped mediaDir resp _ [] _
      fun v hv => downloadImagesGo_all_written mediaDir resp himg _ [] fs v hv

/-- C7 witness: a page with one absolute image reference whose derived file
path is already on disk; the theorem yields that no request is issued for
it, and that a second run after a first run issues none. -/
theorem c7_witness :
    ({ scheme := S "http", host := some (S "x.com"), path := S "/i.png", rest := [] } ∉
      (downloadImages urlRootPath (S "<img src=http://x.com/i.png>") (S "media")
        (fun _ => some (S "image/png")) [S "media/x.com_i.png.png"]).1) ∧
    (downloadImages urlRootPath (S "<img src=http://x.com/i.png>") (S "media")
      (fun _ => some (S "image/png"))
      (downloadImages urlRootPath (S "<img src=http://x.com/i.png>") (S "media")
        (fun _ => some (S "image/png")) []).2).1 = [] := by
  constructor
  · exact (c7_media_skip_existing urlRootPath (S "<img src=http://x.com/i.png>")
      (S "media") (fun _ => some (S "image/png")) [S "media/x.com_i.png.png"]
      { scheme := S "http", host := some (S "x.com"), path := S "/i.png", rest := [] }).1
      (by decide)
  · exact (c7_media_skip_existing urlRootPath (S "<img src=http://x.com/i.png>")
      (S "media") (fun _ => some (S "image/png")) []
      { scheme := S "http", host := some (S "x.com"), path := S "/i.png", rest := [] }).2
      (fun v => ⟨S "image/png", rfl, by decide⟩)

/-! ## String-scanning lemmas shared by the extractor/processor proofs -/

/-- A successful `isPrefixOf` yields an explicit decomposition. -/
theorem prefixOf_exists : ∀ (p s : Str), p.isPrefixOf s = true → ∃ t, s = p ++ t := by
  intro p
  induction p with
  | nil => intro s _; exact ⟨s, rfl⟩
  | cons a pr ih =>
    intro s hp
    cases s with
    | nil => simp [List.isPrefixOf] at hp
    | cons b t =>
      simp only [List.isPrefixOf, Bool.and_eq_true, beq_iff_eq] at hp
      rcases ih t hp.2 with ⟨u, rfl⟩
      exact ⟨u, by simp [hp.1]⟩

/-- Every list is a prefix of itself extended. -/
theorem prefixOf_append_self : ∀ (p t : Str), p.isPrefixOf (p ++ t) = true := by
  intro p
  induction p with
  | nil => intro t; cases t <;> rfl
  | cons a pr ih => intro t; simp [List.isPrefixOf, ih t]

/-- Members of a prefix are members of the whole. -/
theorem mem_of_prefixOf {p s : Str} {a : Char} (hp : p.isPrefixOf s = true)
    (ha : a ∈ p) : a ∈ s := by
  rcases prefixOf_exists p s hp with ⟨t, rfl⟩
  exact List.mem_append_left t ha

/-- A pattern containing a character absent from `s` never occurs in `s`. -/
theorem findSub_none_of_not_mem {c : Char} {pat : Str} (hc : c ∈ pat) :
    ∀ s : Str, c ∉ s → findSub s pat = none := by
  intro s
  induction s with
  | nil =>
    intro _
    have : ¬pat.isEmpty = true := by
      cases pat with
      | nil => cases hc
      | cons a t => simp
    simp [findSub, this]
  | cons a t ih =>
    intro hs
    have hnp : pat.isPrefixOf (a :: t) = false := by
      by_contra h
      simp only [Bool.not_eq_false] at h
      exact hs (mem_of_prefixOf h hc)
    simp [findSub, hnp, ih fun h => hs (List.mem_cons_of_mem a h)]

/-- Scanning step when the pattern does not match at the head. -/
theorem findSub_cons_ne {pat : Str} {c : Char} {t : Str}
    (h : pat.isPrefixOf (c :: t) = false) :
    findSub (c :: t) pat = (findSub t pat).map (· + 1) := by
  simp [findSub, h]

/-- A nonempty pattern is found at position 0 of itself extended. -/
theorem findSub_append_self (pat t : Str) (hne : pat ≠ []) :
    findSub (pat ++ t) pat = some 0 := by
  cases pat with
  | nil => cases hne rfl
  | cons a pr =>
    have := prefixOf_append_self (a :: pr) t
    simp only [List.cons_append] at this ⊢
    simp [findSub, this]

/-- Shifting the scan over a block that cannot contain the pattern's first
character. -/
theorem findSub_append_shift {p0 : Char} {pr : Str} :
    ∀ (a b : Str), p0 ∉ a →
      findSub (a ++ b) (p0 :: pr) = (findSub b (p0 :: pr)).map (· + a.length) := by
  intro a
  induction a with
  | nil =>
    intro b _
    cases hf : findSub b (p0 :: pr) <;> simp [hf]
  | cons c a' ih =>
    intro b hna
    have hcp : c ≠ p0 := fun h => hna (by simp [h])
    have hpre : (p0 :: pr).isPrefixOf (c :: (a' ++ b)) = false := by
      have h0 : (p0 == c) = false := by
        simp only [beq_eq_false_iff_ne, ne_eq]
        exact fun h => hcp h.symm
      simp [List.isPrefixOf, h0]
    rw [List.cons_append, findSub_cons_ne hpre, ih b fun h => hna (List.mem_cons_of_mem c h)]
    cases hf : findSub b (p0 :: pr) <;> simp [hf]
    omega

/-- A `none` from `findIdxP` means no member satisfies the predicate. -/
theorem findIdxP_none_mem {p : Char → Bool} :
    ∀ s : Str, findIdxP s p = none → ∀ x ∈ s, p x = false := by
  intro s
  induction s with
  | nil => intro _ x hx; cases hx
  | cons a t ih =>
    intro h x hx
    have hpa : p a = false := by
      by_contra hc
      simp only [Bool.not_eq_false] at hc
      simp [findIdxP, hc] at h
    have ht : findIdxP t p = none := by
      cases hf : findIdxP t p
      · rfl
      · simp [findIdxP, hpa, hf] at h
    rcases List.mem_cons.mp hx with rfl | hmem
    · exact hpa
    · exact ih ht x hmem

/-- The first satisfying character after a clean block. -/
theorem findIdxP_append_first {p : Char → Bool} {c : Char} (hc : p c = true) :
    ∀ (a : Str) (r : Str), (∀ x ∈ a, p x = false) →
      findIdxP (a ++ c :: r) p = some a.length := by
  intro a
  induction a with
  | nil => intro r _; simp [findIdxP, hc]
  | cons x a' ih =>
    intro r hall
    have hx : p x = false := hall x (List.mem_cons_self x a')
    have hrec := ih r fun y hy => hall y (List.mem_cons_of_mem x hy)
    simp [findIdxP, hx, hrec]

/-- The first occurrence of `c` after a block not containing it. -/
theorem findChar_append_first {c : Char} :
    ∀ (a : Str) (r : Str), c ∉ a → findChar (a ++ c :: r) c = some a.length := by
  intro a r hna
  refine findIdxP_append_first (by simp) a r fun x hx => ?_
  simp only [beq_eq_false_iff_ne, ne_eq]
  exact fun h => hna (h ▸ hx)

/-- A character absent from `s` is never found. -/
theorem rfindChar_none {c : Char} : ∀ s : Str, c ∉ s → rfindChar s c = none := by
  intro s
  induction s with
  | nil => intro _; rfl
  | cons a t ih =>
    intro hs
    have ha : (a == c) = false := by
      simp only [beq_eq_false_iff_ne, ne_eq]
      exact fun h => hs (by simp [h])
    simp [rfindChar, ih fun h => hs (List.mem_cons_of_mem a h), ha]

/-- The last occurrence of `c` when the tail after it is clean. -/
theorem rfindChar_append_last {c : Char} {b : Str} (hb : c ∉ b) :
    ∀ a : Str, rfindChar (a ++ c :: b) c = some a.length := by
  intro a
  induction a with
  | nil => simp [rfindChar, rfindChar_none b hb]
  | cons x a' ih => simp [rfindChar, ih]

/-- The position returned by `findSub` carries the pattern. -/
theorem findSub_some_isPrefixOf {pat : Str} :
    ∀ (s : Str) (k : Nat), findSub s pat = some k →
      pat.isPrefixOf (s.drop k) = true := by
  intro s
  induction s with
  | nil =>
    intro k h
    by_cases hp : pat.isEmpty = true
    · cases pat with
      | nil =>
        simp only [findSub, List.isEmpty_nil, if_true, Option.some.injEq] at h
        subst h
        rfl
      | cons a t => simp at hp
    · simp [findSub, hp] at h
  | cons a t ih =>
    intro k h
    by_cases hpre : pat.isPrefixOf (a :: t) = true
    · simp only [findSub, hpre, if_true, Option.some.injEq] at h
      subst h
      simpa using hpre
    · rw [findSub_cons_ne (Bool.not_eq_true _ ▸ (by simpa using hpre))] at h
      cases hf : findSub t pat with
      | none => simp [hf] at h
      | some k' =>
        rw [hf] at h
        have hk : k = k' + 1 := by simpa using h.symm
        subst hk
        simpa using ih k' hf

/-- `findSub` returns the first occurrence: all earlier positions fail. -/
theorem findSub_some_min {pat : Str} :
    ∀ (s : Str) (k : Nat), findSub s pat = some k →
      ∀ i < k, pat.isPrefixOf (s.drop i) = false := by
  intro s
  induction s with
  | nil =>
    intro k h i hik
    cases pat with
    | nil =>
      simp only [findSub, List.isEmpty_nil, if_true, Option.some.injEq] at h
      subst h
      exact absurd hik (by omega)
    | cons a t => simp [List.drop_nil, List.isPrefixOf]
  | cons a t ih =>
    intro k h i hik
    by_cases hpre : pat.isPrefixOf (a :: t) = true
    · simp only [findSub, hpre, if_true, Option.some.injEq] at h
      omega
    · have hpre2 : pat.isPrefixOf (a :: t) = false := by
        simp only [Bool.not_eq_true] at hpre
        exact hpre
      rw [findSub_cons_ne hpre2] at h
      cases hf : findSub t pat with
      | none => simp [hf] at h
      | some j =>
        rw [hf] at h
        have hk : k = j + 1 := by simpa using h.symm
        subst hk
        cases i with
        | zero => simpa using hpre2
        | succ i2 => simpa using ih j hf i2 (by omega)

/-- A `none` from `findSub` on a nonempty pattern excludes occurrences at
every position. -/
theorem findSub_none_drop {pat : Str} (hne : pat ≠ []) :
    ∀ s : Str, findSub s pat = none → ∀ i, pat.isPrefixOf (s.drop i) = false := by
  intro s
  induction s with
  | nil =>
    intro _ i
    cases pat with
    | nil => cases hne rfl
    | cons a t => simp [List.isPrefixOf]
  | cons a t ih =>
    intro h i
    have hpre : pat.isPrefixOf (a :: t) = false := by
      by_contra hc
      simp only [Bool.not_eq_false] at hc
      simp [findSub, hc] at h
    rw [findSub_cons_ne hpre] at h
    have ht : findSub t pat = none := by
      cases hf : findSub t pat
      · rfl
      · simp [hf] at h
    cases i with
    | zero => simpa using hpre
    | succ i' => simpa using ih ht i'

/-- An occurrence of a nonempty pattern lies strictly inside the string. -/
theorem lt_length_of_prefixOf_drop {pat : Str} (hne : pat ≠ []) {s : Str} {k : Nat}
    (h : pat.isPrefixOf (s.drop k) = true) : k < s.length := by
  by_contra hk
  have : s.drop k = [] := List.drop_eq_nil_of_le (by omega)
  rw [this] at h
  cases pat with
  | nil => exact hne rfl
  | cons a t => simp [List.isPrefixOf] at h

/-- The empty pattern is a prefix of everything. -/
theorem nil_prefixOf (s : Str) : ([] : Str).isPrefixOf s = true := by
  cases s <;> rfl

/-- A pattern is found exactly at the end of a block that cannot contain its
first character. -/
theorem findSub_block (a pat b : Str) (p0 : Char) (pr : Str)
    (hpat : pat = p0 :: pr) (ha : p0 ∉ a) :
    findSub (a ++ (pat ++ b)) pat = some a.length := by
  subst hpat
  rw [findSub_append_shift a _ ha, findSub_append_self _ b (by simp)]
  simp

/-- `download_images` extracts a double-quoted `src` attribute value. -/
theorem imgSrcsLine_dq (url : Str) (hdq : dq ∉ url) :
    imgSrcsLine (S "<img " ++ (srcDq ++ (url ++ [dq, '>']))) = [url] := by
  have hg1 : containsSub (S "<img " ++ (srcDq ++ (url ++ [dq, '>']))) (S "<img") = true := by
    have h0 := findSub_block []
      (S "<img") (' ' :: 's' :: 'r' :: 'c' :: '=' :: dq :: (url ++ [dq, '>']))
      '<' (S "img") rfl (by decide)
    have hline : S "<img " ++ (srcDq ++ (url ++ [dq, '>'])) =
        [] ++ ((S "<img") ++ (' ' :: 's' :: 'r' :: 'c' :: '=' :: dq :: (url ++ [dq, '>']))) := rfl
    rw [containsSub, hline, h0]
    rfl
  have hg2 : containsSub (S "<img " ++ (srcDq ++ (url ++ [dq, '>']))) (S "src=") = true := by
    have h0 := findSub_block (S "<img ")
      (S "src=") (dq :: (url ++ [dq, '>'])) 's' (S "rc=") rfl (by decide)
    have hline : S "<img " ++ (srcDq ++ (url ++ [dq, '>'])) =
        (S "<img ") ++ ((S "src=") ++ (dq :: (url ++ [dq, '>']))) := rfl
    rw [containsSub, hline, h0]
    rfl
  have hfs : findSub (S "<img " ++ (srcDq ++ (url ++ [dq, '>']))) srcDq = some 5 := by
    have h0 := findSub_block (S "<img ") srcDq (url ++ [dq, '>'])
      's' (S "rc=" ++ [dq]) rfl (by decide)
    simpa using h0
  have hdrop : (S "<img " ++ (srcDq ++ (url ++ [dq, '>']))).drop (5 + 5) =
      url ++ dq :: ['>'] := rfl
  simp only [imgSrcsLine, hg1, hg2, Bool.and_self, Bool.not_true, Bool.false_eq_true,
    if_false, hfs, hdrop, findChar_append_first url ['>'] hdq, List.take_left]

/-- `download_images` extracts a single-quoted `src` attribute value. -/
theorem imgSrcsLine_sq (url : Str) (hdq : dq ∉ url) (hsq : sq ∉ url) :
    imgSrcsLine (S "<img " ++ (srcSq ++ (url ++ [sq, '>']))) = [url] := by
  have hnd : dq ∉ S "<img " ++ (srcSq ++ (url ++ [sq, '>'])) := by
    intro hmem
    rcases List.mem_append.mp hmem with h | h
    · exact absurd h (by decide)
    rcases List.mem_append.mp h with h | h
    · exact absurd h (by decide)
    rcases List.mem_append.mp h with h | h
    · exact hdq h
    · exact absurd h (by decide)
  have hg1 : containsSub (S "<img " ++ (srcSq ++ (url ++ [sq, '>']))) (S "<img") = true := by
    have h0 := findSub_block []
      (S "<img") (' ' :: 's' :: 'r' :: 'c' :: '=' :: sq :: (url ++ [sq, '>']))
      '<' (S "img") rfl (by decide)
    have hline : S "<img " ++ (srcSq ++ (url ++ [sq, '>'])) =
        [] ++ ((S "<img") ++ (' ' :: 's' :: 'r' :: 'c' :: '=' :: sq :: (url ++ [sq, '>']))) := rfl
    rw [containsSub, hline, h0]
    rfl
  have hg2 : containsSub (S "<img " ++ (srcSq ++ (url ++ [sq, '>']))) (S "src=") = true := by
    have h0 := findSub_block (S "<img ")
      (S "src=") (sq :: (url ++ [sq, '>'])) 's' (S "rc=") rfl (by decide)
    have hline : S "<img " ++ (srcSq ++ (url ++ [sq, '>'])) =
        (S "<img ") ++ ((S "src=") ++ (sq :: (url ++ [sq, '>']))) := rfl
    rw [containsSub, hline, h0]
    rfl
  have hb1 : findSub (S "<img " ++ (srcSq ++ (url ++ [sq, '>']))) srcDq = none :=
    findSub_none_of_not_mem (show dq ∈ srcDq by decide) _ hnd
  have hfs : findSub (S "<img " ++ (srcSq ++ (url ++ [sq, '>']))) srcSq = some 5 := by
    have h0 := findSub_block (S "<img ") srcSq (url ++ [sq, '>'])
      's' (S "rc=" ++ [sq]) rfl (by decide)
    simpa using h0
  have hdrop : (S "<img " ++ (srcSq ++ (url ++ [sq, '>']))).drop (5 + 5) =
      url ++ sq :: ['>'] := rfl
  simp only [imgSrcsLine, hg1, hg2, Bool.and_self, Bool.not_true, Bool.false_eq_true,
    if_false, hb1, hfs, hdrop, findChar_append_first url ['>'] hsq, List.take_left]

/-- `download_images` extracts an unquoted `src` attribute value, ending at
whitespace or `>`. -/
theorem imgSrcsLine_unq (url : Str) (hdq : dq ∉ url) (hsq : sq ∉ url)
    (hgt : '>' ∉ url) (hwsp : ∀ x ∈ url, isWsp x = false) :
    imgSrcsLine (S "<img " ++ (S "src=" ++ (url ++ ['>']))) = [url] := by
  have hmemgen : ∀ c : Char, c ∉ S "<img " → c ∉ S "src=" → c ∉ url → c ≠ '>' →
      c ∉ S "<img " ++ (S "src=" ++ (url ++ ['>'])) := by
    intro c h1 h2 h3 h4 hmem
    rcases List.mem_append.mp hmem with h | h
    · exact h1 h
    rcases List.mem_append.mp h with h | h
    · exact h2 h
    rcases List.mem_append.mp h with h | h
    · exact h3 h
    · simp only [List.mem_singleton] at h
      exact h4 h
  have hg1 : containsSub (S "<img " ++ (S "src=" ++ (url ++ ['>']))) (S "<img") = true := by
    have h0 := findSub_block []
      (S "<img") (' ' :: 's' :: 'r' :: 'c' :: '=' :: (url ++ ['>']))
      '<' (S "img") rfl (by decide)
    have hline : S "<img " ++ (S "src=" ++ (url ++ ['>'])) =
        [] ++ ((S "<img") ++ (' ' :: 's' :: 'r' :: 'c' :: '=' :: (url ++ ['>']))) := rfl
    rw [containsSub, hline, h0]
    rfl
  have hg2 : containsSub (S "<img " ++ (S "src=" ++ (url ++ ['>']))) (S "src=") = true := by
    have h0 := findSub_block (S "<img ")
      (S "src=") (url ++ ['>']) 's' (S "rc=") rfl (by decide)
    have hline : S "<img " ++ (S "src=" ++ (url ++ ['>'])) =
        (S "<img ") ++ ((S "src=") ++ (url ++ ['>'])) := rfl
    rw [containsSub, hline, h0]
    rfl
  have hb1 : findSub (S "<img " ++ (S "src=" ++ (url ++ ['>']))) srcDq = none :=
    findSub_none_of_not_mem (show dq ∈ srcDq by decide) _
      (hmemgen dq (by decide) (by decide) hdq (by decide))
  have hb2 : findSub (S "<img " ++ (S "src=" ++ (url ++ ['>']))) srcSq = none :=
    findSub_none_of_not_mem (show sq ∈ srcSq by decide) _
      (hmemgen sq (by decide) (by decide) hsq (by decide))
  have hfs : findSub (S "<img " ++ (S "src=" ++ (url ++ ['>']))) (S "src=") = some 5 := by
    have h0 := findSub_block (S "<img ") (S "src=") (url ++ ['>'])
      's' (S "rc=") rfl (by decide)
    simpa using h0
  have hdrop : (S "<img " ++ (S "src=" ++ (url ++ ['>']))).drop (5 + 4) =
      url ++ '>' :: [] := rfl
  have hidx : findIdxP (url ++ '>' :: []) (fun c => isWsp c || c == '>') =
      some url.length := by
    refine findIdxP_append_first (by decide) url [] fun x hx => ?_
    have h1 := hwsp x hx
    have h2 : (x == '>') = false := by
      simp only [beq_eq_false_iff_ne, ne_eq]
      exact fun e => hgt (e ▸ hx)
    simp [h1, h2]
  simp only [imgSrcsLine, hg1, hg2, Bool.and_self, Bool.not_true, Bool.false_eq_true,
    if_false, hb1, hb2, hfs, hdrop, hidx, List.take_left]

/-- Every link `extract_links` keeps comes from an `href` that passed the
scheme filters and resolved against the base URL. -/
theorem extractLinksLine_sound (base : UrlT) (line : Str) (u : Str)
    (hu : u ∈ extractLinksLine base line) :
    ∃ href, (S "#").isPrefixOf href = false ∧
      (S "javascript:").isPrefixOf href = false ∧
      (S "mailto:").isPrefixOf href = false ∧
      ∃ full, joinUrl base href = some full ∧ u = urlToString full := by
  simp only [extractLinksLine] at hu
  cases hf : findSub line hrefPat with
  | none => simp only [hf] at hu; cases hu
  | some start =>
    simp only [hf] at hu
    cases hc : findChar (line.drop (start + 6)) dq with
    | none => simp only [hc] at hu; cases hu
    | some e =>
      simp only [hc] at hu
      by_cases hfil : ((S "#").isPrefixOf ((line.drop (start + 6)).take e) ||
          (S "javascript:").isPrefixOf ((line.drop (start + 6)).take e) ||
          (S "mailto:").isPrefixOf ((line.drop (start + 6)).take e)) = true
      · rw [if_pos hfil] at hu
        cases hu
      · rw [if_neg hfil] at hu
        simp only [Bool.or_eq_true, not_or, Bool.not_eq_true] at hfil
        cases hj : joinUrl base ((line.drop (start + 6)).take e) with
        | none => simp only [hj] at hu; cases hu
        | some full =>
          simp only [hj, List.mem_singleton] at hu
          exact ⟨(line.drop (start + 6)).take e, hfil.1.1, hfil.1.2, hfil.2,
            full, hj, hu⟩

/-- C9 counterexample: a single-quoted anchor target is not extracted at
all — `extract_links` scans only for the double-quoted pattern `href="` —
while the same anchor with double quotes is extracted. -/
theorem c9_counterexample :
    extractLinks (S "<a href=" ++ sq :: S "http://example.com/a" ++ [sq] ++ S ">x</a>")
      urlRootPath = [] ∧
    extractLinks (S "<a href=" ++ dq :: S "http://example.com/a" ++ [dq] ++ S ">x</a>")
      urlRootPath = [S "http://example.com/a"] := by
  refine ⟨by decide, by decide⟩

/-- C9 (amended): `extract_links` keeps only targets of double-quoted
`href="..."` attributes (a line without that pattern yields nothing), and
every kept link passed the fragment/javascript/mailto filters and resolved
against the base URL; the image extractor of `download_images` handles
double-quoted, single-quoted and unquoted `src` values, and applies no
scheme filter of its own (a `javascript:` source resolves and survives). -/
theorem c9_extractor_properties :
    (∀ (html : Str) (base : UrlT) (u : Str), u ∈ extractLinks html base →
      ∃ href, (S "#").isPrefixOf href = false ∧
        (S "javascript:").isPrefixOf href = false ∧
        (S "mailto:").isPrefixOf href = false ∧
        ∃ full, joinUrl base href = some full ∧ u = urlToString full) ∧
    (∀ (line : Str) (base : UrlT), containsSub line hrefPat = false →
      extractLinksLine base line = []) ∧
    (∀ url : Str, dq ∉ url →
      imgSrcsLine (S "<img " ++ (srcDq ++ (url ++ [dq, '>']))) = [url]) ∧
    (∀ url : Str, dq ∉ url → sq ∉ url →
      imgSrcsLine (S "<img " ++ (srcSq ++ (url ++ [sq, '>']))) = [url]) ∧
    (∀ url : Str, dq ∉ url → sq ∉ url → '>' ∉ url → (∀ x ∈ url, isWsp x = false) →
      imgSrcsLine (S "<img " ++ (S "src=" ++ (url ++ ['>']))) = [url]) ∧
    resolveImage urlRootPath (S "javascript:alert(1)") =
      some { scheme := S "javascript", host := none, path := S "alert(1)", rest := [] } := by
  refine ⟨?_, ?_, imgSrcsLine_dq, imgSrcsLine_sq, imgSrcsLine_unq, by decide⟩
  · intro html base u hu
    rcases List.mem_flatten.mp hu with ⟨l, hl, hul⟩
    rcases List.mem_map.mp hl with ⟨line, _, rfl⟩
    exact extractLinksLine_sound base line u hul
  · intro line base hno
    have hnone : findSub line hrefPat = none := by
      cases hf : findSub line hrefPat
      · rfl
      · rw [containsSub, hf] at hno
        cases hno
    simp [extractLinksLine, hnone]

/-- C9 witness: the amended theorem applied to the concrete image source
`http://x.com/i.png` in each quoting style, to a double-quoted anchor line,
and to an anchor-free line. -/
theorem c9_witness :
    imgSrcsLine (S "<img " ++ (srcDq ++ (S "http://x.com/i.png" ++ [dq, '>']))) =
      [S "http://x.com/i.png"] ∧
    imgSrcsLine (S "<img " ++ (srcSq ++ (S "http://x.com/i.png" ++ [sq, '>']))) =
      [S "http://x.com/i.png"] ∧
    imgSrcsLine (S "<img " ++ (S "src=" ++ (S "http://x.com/i.png" ++ ['>']))) =
      [S "http://x.com/i.png"] ∧
    extractLinksLine urlRootPath (S "x") = [] := by
  refine ⟨?_, ?_, ?_, ?_⟩
  · exact (c9_extractor_properties).2.2.1 (S "http://x.com/i.png") (by decide)
  · exact (c9_extractor_properties).2.2.2.1 (S "http://x.com/i.png") (by decide) (by decide)
  · exact (c9_extractor_properties).2.2.2.2.1 (S "http://x.com/i.png") (by decide)
      (by decide) (by decide) (by decide)
  · exact (c9_extractor_properties).2.1 (S "x") urlRootPath (by decide)

/-- Membership in a later suffix implies membership in an earlier one. -/
theorem mem_drop_of_le {s : Str} {c : Char} {i j : Nat} (hij : i ≤ j)
    (h : c ∈ s.drop j) : c ∈ s.drop i := by
  have heq : (s.drop i).drop (j - i) = s.drop j := by
    rw [List.drop_drop]
    congr 1
    omega
  rw [← heq] at h
  exact (List.drop_sublist _ _).mem h

/-- Removing a tag span strictly shrinks the string. -/
theorem cut_length_lt {s : Str} {start k : Nat} (h1 : start < s.length)
    (h2 : start < k) : (s.take start ++ s.drop k).length < s.length := by
  rw [List.length_append, List.length_take, List.length_drop,
    Nat.min_eq_left (by omega)]
  omega

/-- Postcondition of the `remove_html_tags` loop with sufficient fuel: every
surviving occurrence of the open tag has no `>` anywhere after it (the loop
only stops at an occurrence when the rest of the document has no `>`). -/
theorem removeHtmlTagsAux_post (tag closeT : Str) :
    ∀ (fuel : Nat) (s : Str), s.length < fuel →
      noClosableFrag tag (removeHtmlTagsAux ('<' :: tag) closeT fuel s) := by
  intro fuel
  induction fuel with
  | zero => intro s hs; exact absurd hs (by omega)
  | succ f ih =>
    intro s hs
    cases hf : findSub s ('<' :: tag) with
    | none =>
      have hid : removeHtmlTagsAux ('<' :: tag) closeT (f + 1) s = s := by
        simp [removeHtmlTagsAux, hf]
      rw [hid]
      intro i hpre
      have := findSub_none_drop (by simp) s hf i
      rw [this] at hpre
      cases hpre
    | some start =>
      have hstart : start < s.length :=
        lt_length_of_prefixOf_drop (by simp) (findSub_some_isPrefixOf s start hf)
      cases hgt : findChar (s.drop start) '>' with
      | none =>
        have hid : removeHtmlTagsAux ('<' :: tag) closeT (f + 1) s = s := by
          simp [removeHtmlTagsAux, hf, hgt]
        rw [hid]
        intro i hpre hmem
        have hmin : start ≤ i := by
          by_contra hlt
          have := findSub_some_min s start hf i (by omega)
          rw [this] at hpre
          cases hpre
        have : '>' ∈ s.drop start := mem_drop_of_le hmin hmem
        have hall := findIdxP_none_mem (s.drop start) hgt '>' this
        simp at hall
      | some e =>
        have hlen : ∀ k, start < k → (s.take start ++ s.drop k).length < f := by
          intro k hk
          have := cut_length_lt hstart hk
          omega
        by_cases hself : (S "/>").isSuffixOf ((s.take (start + e + 1)).drop start) = true
        · have hid : removeHtmlTagsAux ('<' :: tag) closeT (f + 1) s =
              removeHtmlTagsAux ('<' :: tag) closeT f (s.take start ++ s.drop (start + e + 1)) := by
            simp [removeHtmlTagsAux, hf, hgt, hself]
          rw [hid]
          exact ih _ (hlen (start + e + 1) (by omega))
        · cases hcl : findSub (s.drop (start + e + 1)) closeT with
          | some closeStart =>
            have hid : removeHtmlTagsAux ('<' :: tag) closeT (f + 1) s =
                removeHtmlTagsAux ('<' :: tag) closeT f
                  (s.take start ++ s.drop (start + e + 1 + closeStart + closeT.length)) := by
              simp [removeHtmlTagsAux, hf, hgt, hself, hcl]
            rw [hid]
            exact ih _ (hlen (start + e + 1 + closeStart + closeT.length) (by omega))
          | none =>
            have hid : removeHtmlTagsAux ('<' :: tag) closeT (f + 1) s =
                removeHtmlTagsAux ('<' :: tag) closeT f (s.take start ++ s.drop (start + e + 1)) := by
              simp [removeHtmlTagsAux, hf, hgt, hself, hcl]
            rw [hid]
            exact ih _ (hlen (start + e + 1) (by omega))

/-- The blank-collapsing pass produces no two consecutive blank lines, and
with `prevBlank = true` its first kept line is non-blank. -/
theorem collapseBlankAux_chain :
    ∀ (ls : List Str) (b : Bool),
      noConsecBlank (collapseBlankAux ls b) ∧
      (b = true → ∀ h, (collapseBlankAux ls b).head? = some h → blankLine h = false) := by
  intro ls
  induction ls with
  | nil => intro b; exact ⟨List.chain'_nil, fun _ h hh => by cases hh⟩
  | cons l t ih =>
    intro b
    by_cases hbl : blankLine l = true
    · by_cases hb : b = true
      · subst hb
        constructor
        · simpa [collapseBlankAux, hbl] using (ih true).1
        · intro _ h hh
          simp only [collapseBlankAux, hbl, Bool.and_self, if_true] at hh
          exact (ih true).2 rfl h hh
      · have hb2 : b = false := by
          cases hq : b
          · rfl
          · exact absurd hq hb
        have hout : collapseBlankAux (l :: t) b = l :: collapseBlankAux t (blankLine l) := by
          simp [collapseBlankAux, hbl, hb2]
        constructor
        · rw [hout, noConsecBlank, List.chain'_cons']
          refine ⟨?_, (ih _).1⟩
          intro y hy
          have hyb : blankLine y = false := (ih (blankLine l)).2 hbl y hy
          intro hc
          rw [hyb] at hc
          cases hc.2
        · intro hbt
          exact absurd hbt hb
    · have hbl2 : blankLine l = false := by
        cases hq : blankLine l
        · rfl
        · exact absurd hq hbl
      have hout : collapseBlankAux (l :: t) b = l :: collapseBlankAux t (blankLine l) := by
        simp [collapseBlankAux, hbl2]
      constructor
      · rw [hout, noConsecBlank, List.chain'_cons']
        refine ⟨?_, (ih _).1⟩
        intro y hy hc
        rw [hbl2] at hc
        cases hc.1
      · intro _ h hh
        rw [hout] at hh
        simp only [List.head?_cons, Option.some.injEq] at hh
        subst hh
        exact hbl2

/-- C6 counterexample: `final_cleanup` leaves the dangling fragment `<img`
(no `>` anywhere after it) untouched, contradicting the claim that no tag
fragment with a dangling open bracket survives; and because blank-line
collapsing runs before tag removal, removing two `<img ...>` tags separated
by a blank line leaves two consecutive blank lines in the output. -/
theorem c6_counterexample :
    finalCleanup (S "<img") = S "<img" ∧
    rustLines (finalCleanup (S "<img x>" ++ [nl, nl] ++ S "<img y>")) = [[], []] := by
  refine ⟨by decide, by decide⟩

/-- C6 (amended): the blank-collapsing pass of `final_cleanup` (which runs
first, on the raw lines) never keeps two consecutive blank lines;
`remove_html_tags` removes every `<img>`/`<video>`/`<audio>` tag that is
followed by some `>` — self-closing, matched and unmatched alike — so each
surviving open-tag occurrence is a dangling fragment with no `>` anywhere
after it; in particular the final output of `final_cleanup` retains no
closable `<audio` occurrence.  (Tag removal runs after blank collapsing and
may itself create new blank-line runs or fragments of other tags.) -/
theorem c6_cleanup_properties :
    ∀ (content s tag : Str),
      noConsecBlank (collapseBlankAux (rustLines content) false) ∧
      noClosableFrag tag (removeHtmlTags s tag) ∧
      noClosableFrag (S "audio") (finalCleanup content) := by
  intro content s tag
  refine ⟨(collapseBlankAux_chain (rustLines content) false).1, ?_, ?_⟩
  · exact removeHtmlTagsAux_post tag _ (s.length + 1) s (by omega)
  · exact removeHtmlTagsAux_post (S "audio") _ _ _ (by omega)

/-- Enqueue block, skip case: the link is already visited or registered,
fails to parse, or lies on a different host. -/
theorem enqueueLinks_cons_skip (bh : Option (Option Str)) (d : Nat)
    (vis : List Str) (link : Str) (rest : List Str) (ls : List Str)
    (q : List (Str × Nat))
    (hskip : (link ∈ vis ∨ link ∈ ls) ∨ parseUrl link = none ∨
      (∃ pl, parseUrl link = some pl ∧ ¬some pl.host = bh)) :
    enqueueLinks bh d vis (link :: rest) (ls, q) =
      enqueueLinks bh d vis rest (ls, q) := by
  rcases hskip with h | h | ⟨pl, hp, hh⟩
  · simp [enqueueLinks, h]
  · by_cases hmem : link ∈ vis ∨ link ∈ ls
    · simp [enqueueLinks, hmem]
    · simp [enqueueLinks, hmem, h]
  · by_cases hmem : link ∈ vis ∨ link ∈ ls
    · simp [enqueueLinks, hmem]
    · simp [enqueueLinks, hmem, hp, hh]

/-- Enqueue block, push case: a fresh same-host link is registered and
enqueued at `d + 1`. -/
theorem enqueueLinks_cons_push (bh : Option (Option Str)) (d : Nat)
    (vis : List Str) (link : Str) (rest : List Str) (ls : List Str)
    (q : List (Str × Nat)) (pl : UrlT)
    (hmem : ¬(link ∈ vis ∨ link ∈ ls)) (hp : parseUrl link = some pl)
    (hh : some pl.host = bh) :
    enqueueLinks bh d vis (link :: rest) (ls, q) =
      enqueueLinks bh d vis rest (link :: ls, q ++ [(link, d + 1)]) := by
  simp [enqueueLinks, hmem, hp, hh]

/-- Items in the queue after the enqueue block are old items or were pushed
at `d + 1`. -/
theorem enqueueLinks_queue_mem (bh : Option (Option Str)) (d : Nat) (vis : List Str) :
    ∀ (links : List Str) (ls : List Str) (q : List (Str × Nat)) (x : Str × Nat),
      x ∈ (enqueueLinks bh d vis links (ls, q)).2 → x ∈ q ∨ x.2 = d + 1 := by
  intro links
  induction links with
  | nil => intro ls q x hx; exact Or.inl hx
  | cons link rest ih =>
    intro ls q x hx
    by_cases hmem : link ∈ vis ∨ link ∈ ls
    · rw [enqueueLinks_cons_skip bh d vis link rest ls q (Or.inl hmem)] at hx
      exact ih ls q x hx
    · cases hp : parseUrl link with
      | none =>
        rw [enqueueLinks_cons_skip bh d vis link rest ls q (Or.inr (Or.inl hp))] at hx
        exact ih ls q x hx
      | some pl =>
        by_cases hh : some pl.host = bh
        · rw [enqueueLinks_cons_push bh d vis link rest ls q pl hmem hp hh] at hx
          rcases ih _ _ x hx with hq | hd
          · rcases List.mem_append.mp hq with h | h
            · exact Or.inl h
            · simp only [List.mem_singleton] at h
              subst h
              exact Or.inr rfl
          · exact Or.inr hd
        · rw [enqueueLinks_cons_skip bh d vis link rest ls q
            (Or.inr (Or.inr ⟨pl, hp, hh⟩))] at hx
          exact ih ls q x hx

/-- Invariant preservation through the guarded enqueue block: given that the
seed is visited and the queued/pending URLs are distinct, unvisited, and
registered in the link set (or the seed), the same holds after enqueuing an
arbitrary list of links. -/
theorem enqueueLinks_inv (bh : Option (Option Str)) (d : Nat) (vis : List Str)
    (seed : Str) (hseed : seed ∈ vis) :
    ∀ (links : List Str) (ls : List Str) (q : List (Str × Nat)) (P : List Str),
      (q.map Prod.fst ++ P).Nodup →
      (∀ u ∈ q.map Prod.fst ++ P, u ∉ vis) →
      (∀ u ∈ q.map Prod.fst ++ P, u ∈ ls ∨ u = seed) →
      ((enqueueLinks bh d vis links (ls, q)).2.map Prod.fst ++ P).Nodup ∧
      (∀ u ∈ (enqueueLinks bh d vis links (ls, q)).2.map Prod.fst ++ P, u ∉ vis) ∧
      (∀ u ∈ (enqueueLinks bh d vis links (ls, q)).2.map Prod.fst ++ P,
        u ∈ (enqueueLinks bh d vis links (ls, q)).1 ∨ u = seed) := by
  intro links
  induction links with
  | nil => intro ls q P h1 h2 h3; exact ⟨h1, h2, h3⟩
  | cons link rest ih =>
    intro ls q P h1 h2 h3
    by_cases hmem : link ∈ vis ∨ link ∈ ls
    · rw [enqueueLinks_cons_skip bh d vis link rest ls q (Or.inl hmem)]
      exact ih ls q P h1 h2 h3
    · cases hp : parseUrl link with
      | none =>
        rw [enqueueLinks_cons_skip bh d vis link rest ls q (Or.inr (Or.inl hp))]
        exact ih ls q P h1 h2 h3
      | some pl =>
        by_cases hh : some pl.host = bh
        · rw [enqueueLinks_cons_push bh d vis link rest ls q pl hmem hp hh]
          have hlv : link ∉ vis := fun h => hmem (Or.inl h)
          have hls : link ∉ ls := fun h => hmem (Or.inr h)
          have hlseed : link ≠ seed := fun h => hlv (h ▸ hseed)
          have hfresh : link ∉ q.map Prod.fst ++ P := by
            intro hin
            rcases h3 link hin with h | h
            · exact hls h
            · exact hlseed h
          have heq : (q ++ [(link, d + 1)]).map Prod.fst ++ P =
              q.map Prod.fst ++ link :: P := by
            simp
          have h1' : ((q ++ [(link, d + 1)]).map Prod.fst ++ P).Nodup := by
            rw [heq, List.nodup_middle]
            exact List.nodup_cons.mpr ⟨hfresh, h1⟩
          have h2' : ∀ u ∈ (q ++ [(link, d + 1)]).map Prod.fst ++ P, u ∉ vis := by
            rw [heq]
            intro u hu
            rcases List.mem_append.mp hu with h | h
            · exact h2 u (List.mem_append_left P h)
            · rcases List.mem_cons.mp h with rfl | h
              · exact hlv
              · exact h2 u (List.mem_append_right _ h)
          have h3' : ∀ u ∈ (q ++ [(link, d + 1)]).map Prod.fst ++ P,
              u ∈ link :: ls ∨ u = seed := by
            rw [heq]
            intro u hu
            rcases List.mem_append.mp hu with h | h
            · rcases h3 u (List.mem_append_left P h) with h | h
              · exact Or.inl (List.mem_cons_of_mem _ h)
              · exact Or.inr h
            · rcases List.mem_cons.mp h with rfl | h
              · exact Or.inl (List.mem_cons_self _ _)
              · rcases h3 u (List.mem_append_right _ h) with h | h
                · exact Or.inl (List.mem_cons_of_mem _ h)
                · exact Or.inr h
          exact ih (link :: ls) (q ++ [(link, d + 1)]) P h1' h2' h3'
        · rw [enqueueLinks_cons_skip bh d vis link rest ls q
            (Or.inr (Or.inr ⟨pl, hp, hh⟩))]
          exact ih ls q P h1 h2 h3
theorem spInv_step (p : SpParams) {s t : SpState} (hinv : spInv p s)
    (hstep : SpStep p s t) : spInv p t := by
  obtain ⟨h1, h2, h3, h4, h5, h6⟩ := hinv
  cases hstep with
  | dispatchHit u d rest hq hv =>
    exfalso
    have hu : u ∈ s.queue.map Prod.fst := by
      rw [hq]
      exact List.mem_map.mpr ⟨(u, d), List.mem_cons_self _ _, rfl⟩
    exact h2 u (List.mem_append_left _ hu) hv
  | dispatchMiss u d rest hq hv =>
    have hold : s.queue.map Prod.fst ++ s.pending.map Prod.fst =
        u :: (rest.map Prod.fst ++ s.pending.map Prod.fst) := by
      rw [hq]
      simp
    have hnew : rest.map Prod.fst ++ (s.pending ++ [(u, d)]).map Prod.fst =
        (rest.map Prod.fst ++ s.pending.map Prod.fst) ++ [u] := by
      simp
    have hperm : ((rest.map Prod.fst ++ s.pending.map Prod.fst) ++ [u]).Perm
        (u :: (rest.map Prod.fst ++ s.pending.map Prod.fst)) :=
      List.perm_append_singleton u _
    have hmemiff : ∀ w, w ∈ rest.map Prod.fst ++ (s.pending ++ [(u, d)]).map Prod.fst ↔
        w ∈ s.queue.map Prod.fst ++ s.pending.map Prod.fst := by
      intro w
      rw [hnew, hold]
      exact ⟨fun h => hperm.mem_iff.mp h, fun h => hperm.mem_iff.mpr h⟩
    refine ⟨?_, ?_, ?_, ?_, h5, h6⟩
    · show (rest.map Prod.fst ++ (s.pending ++ [(u, d)]).map Prod.fst).Nodup
      rw [hnew]
      refine hperm.symm.nodup ?_
      rw [← hold]
      exact h1
    · intro w hw
      exact h2 w ((hmemiff w).mp hw)
    · intro w hw
      exact h3 w ((hmemiff w).mp hw)
    · rcases h4 with hse | ⟨hrun, hls, hcase⟩
      · exact Or.inl hse
      · rcases hcase with ⟨hq1, hp1⟩ | ⟨hq2, hp2⟩
        · rw [hq1] at hq
          injection hq with hhead htail
          injection hhead with hu0 hd0
          subst hu0
          subst hd0
          subst htail
          exact Or.inr ⟨hrun, hls, Or.inr ⟨rfl, by simp [hp1]⟩⟩
        · rw [hq2] at hq
          cases hq
  | start u d hp =>
    have hup : u ∈ s.pending.map Prod.fst := List.mem_map.mpr ⟨(u, d), hp, rfl⟩
    have hunv : u ∉ s.visited := h2 u (List.mem_append_right _ hup)
    obtain ⟨l1, l2, hne, hpend_eq, herase_eq⟩ := List.exists_erase_eq hp
    have hpendmap : s.pending.map Prod.fst =
        l1.map Prod.fst ++ u :: l2.map Prod.fst := by
      rw [hpend_eq]
      simp
    have holdshape : s.queue.map Prod.fst ++ s.pending.map Prod.fst =
        (s.queue.map Prod.fst ++ l1.map Prod.fst) ++ u :: l2.map Prod.fst := by
      rw [hpendmap, List.append_assoc]
    have hsub : List.Sublist
        (s.queue.map Prod.fst ++ (l1 ++ l2).map Prod.fst)
        (s.queue.map Prod.fst ++ s.pending.map Prod.fst) := by
      rw [hpendmap]
      refine (List.Sublist.refl _).append ?_
      simp only [List.map_append]
      exact (List.Sublist.refl _).append (List.sublist_cons_self _ _)
    have hufresh : u ∉ s.queue.map Prod.fst ++ (l1 ++ l2).map Prod.fst := by
      have hmid : ((s.queue.map Prod.fst ++ l1.map Prod.fst) ++ u :: l2.map Prod.fst).Nodup := by
        rw [← holdshape]
        exact h1
      have := List.nodup_middle.mp hmid
      have hnotin := List.nodup_cons.mp this |>.1
      intro hu
      apply hnotin
      simp only [List.map_append] at hu
      rw [← List.append_assoc] at hu
      exact hu
    refine ⟨?_, ?_, ?_, ?_, ?_, ?_⟩
    · show (s.queue.map Prod.fst ++ (s.pending.erase (u, d)).map Prod.fst).Nodup
      rw [herase_eq]
      exact h1.sublist hsub
    · intro w hw
      show w ∉ u :: s.visited
      rw [herase_eq] at hw
      have hwold := hsub.mem hw
      have hwnv := h2 w hwold
      intro hwc
      rcases List.mem_cons.mp hwc with rfl | hwc
      · exact hufresh hw
      · exact hwnv hwc
    · intro w hw
      rw [herase_eq] at hw
      exact h3 w (hsub.mem hw)
    · by_cases hse : p.seed ∈ s.visited
      · exact Or.inl (List.mem_cons_of_mem _ hse)
      · rcases h4 with h | ⟨hrun, hls, hcase⟩
        · exact absurd h hse
        · rcases hcase with ⟨hq1, hp1⟩ | ⟨hq2, hp2⟩
          · rw [hp1] at hp
            cases hp
          · rw [hp2] at hp
            rcases List.mem_singleton.mp hp with h
            injection h with hu0 hd0
            subst hu0
            exact Or.inl (List.mem_cons_self _ _)
    · show (s.trace ++ [u]).Nodup
      have hut : u ∉ s.trace := fun h => hunv (h6 u h)
      exact (List.perm_append_singleton u s.trace).nodup_iff.mpr
        (List.nodup_cons.mpr ⟨hut, h5⟩)
    · intro w hw
      rcases List.mem_append.mp hw with h | h
      · exact List.mem_cons_of_mem _ (h6 w h)
      · rcases List.mem_singleton.mp h with rfl
        exact List.mem_cons_self _ _
  | finishOk u d links hr hd =>
    have hse : p.seed ∈ s.visited := by
      rcases h4 with h | ⟨hrun, _, _⟩
      · exact h
      · rw [hrun] at hr
        cases hr
    have := enqueueLinks_inv (spBaseHost p) d s.visited p.seed hse links
      s.linkSet s.queue (s.pending.map Prod.fst) h1 h2 h3
    exact ⟨this.1, this.2.1, this.2.2, Or.inl hse, h5, h6⟩
  | finishNoExtract u d hr =>
    have hse : p.seed ∈ s.visited := by
      rcases h4 with h | ⟨hrun, _, _⟩
      · exact h
      · rw [hrun] at hr
        cases hr
    exact ⟨h1, h2, h3, Or.inl hse, h5, h6⟩

/-- The invariant holds in the initial state. -/
theorem spInv_init (p : SpParams) : spInv p (initSpState p) := by
  refine ⟨?_, ?_, ?_, ?_, ?_, ?_⟩
  · simp [initSpState]
  · intro u hu
    simp [initSpState]
  · intro u hu
    simp only [initSpState, List.map_cons, List.map_nil, List.append_nil,
      List.mem_singleton] at hu
    exact Or.inr hu
  · exact Or.inr ⟨rfl, rfl, Or.inl ⟨rfl, rfl⟩⟩
  · simp [initSpState]
  · intro u hu
    simp [initSpState] at hu

/-- The invariant holds in every reachable state. -/
theorem spInv_reach (p : SpParams) : ∀ s, SpReach p s → spInv p s := by
  intro s hreach
  induction hreach with
  | init => exact spInv_init p
  | step _ hstep ih => exact spInv_step p ih hstep

/-- C3: within one crawl run, no URL is fetched twice — in every reachable
state of the interleaved crawl loop the trace of issued fetches is
duplicate-free.  (The queue is deduplicated against the link set and the
visited set under one lock, so every URL enters the frontier at most once;
the semaphore is dropped from the model, which only adds interleavings.) -/
theorem c3_no_url_fetched_twice :
    ∀ (p : SpParams) (s : SpState), SpReach p s → s.trace.Nodup :=
  fun p s h => (spInv_reach p s h).2.2.2.2.1

/-- C3 witness: the theorem applied to the initial state of the sample
crawl. -/
theorem c3_witness : (initSpState sampleParams).trace.Nodup :=
  c3_no_url_fetched_twice sampleParams (initSpState sampleParams) SpReach.init

/-- The depth-zero invariant is preserved by every step. -/
theorem spDepthZeroInv_step (p : SpParams) (hmd : p.maxDepth = 0) {s t : SpState}
    (hi : spDepthZeroInv p s) (hstep : SpStep p s t) : spDepthZeroInv p t := by
  obtain ⟨hq, hp, hr, hls, htr⟩ := hi
  cases hstep with
  | dispatchHit u d rest hq0 hv =>
    refine ⟨?_, hp, hr, hls, htr⟩
    intro x hx
    exact hq x (by rw [hq0]; exact List.mem_cons_of_mem _ hx)
  | dispatchMiss u d rest hq0 hv =>
    refine ⟨?_, ?_, hr, hls, htr⟩
    · intro x hx
      exact hq x (by rw [hq0]; exact List.mem_cons_of_mem _ hx)
    · intro x hx
      rcases List.mem_append.mp hx with h | h
      · exact hp x h
      · rcases List.mem_singleton.mp h with rfl
        exact hq (u, d) (by rw [hq0]; exact List.mem_cons_self _ _)
  | start u d hps =>
    have hud : (u, d) = (p.seed, 0) := hp (u, d) hps
    refine ⟨hq, ?_, ?_, hls, ?_⟩
    · intro x hx
      exact hp x ((List.erase_sublist _ _).mem hx)
    · intro x hx
      rcases List.mem_append.mp hx with h | h
      · exact hr x h
      · rcases List.mem_singleton.mp h with rfl
        exact hud
    · intro x hx
      rcases List.mem_append.mp hx with h | h
      · exact htr x h
      · rcases List.mem_singleton.mp h with rfl
        exact congrArg Prod.fst hud
  | finishOk u d links hrun hd =>
    exfalso
    rw [hmd] at hd
    exact absurd hd (by omega)
  | finishNoExtract u d hrun =>
    refine ⟨hq, hp, ?_, hls, htr⟩
    intro x hx
    exact hr x ((List.erase_sublist _ _).mem hx)

/-- The depth-zero invariant holds in every reachable state. -/
theorem spDepthZeroInv_reach (p : SpParams) (hmd : p.maxDepth = 0) :
    ∀ s, SpReach p s → spDepthZeroInv p s := by
  intro s hreach
  induction hreach with
  | init =>
    refine ⟨?_, ?_, ?_, rfl, ?_⟩
    · intro x hx
      simpa [initSpState] using List.mem_singleton.mp hx
    · intro x hx
      simp [initSpState] at hx
    · intro x hx
      simp [initSpState] at hx
    · intro u hu
      simp [initSpState] at hu
  | step _ hstep ih => exact spDepthZeroInv_step p hmd ih hstep

/-- C5: with `maxDepth = 0` a crawl run only ever fetches the seed URL,
registers no link and never queues anything but the seed at depth 0; and in
general a step enqueues new items only at depth `d + 1` for a page at depth
`d < maxDepth` (children of max-depth pages are never enqueued). -/
theorem c5_depth_bound :
    (∀ (p : SpParams) (s : SpState), SpReach p s → p.maxDepth = 0 →
      (∀ u ∈ s.trace, u = p.seed) ∧ s.linkSet = [] ∧
      (∀ x ∈ s.queue, x = (p.seed, 0)) ∧ (∀ x ∈ s.pending, x = (p.seed, 0))) ∧
    (∀ (p : SpParams) (s t : SpState), SpStep p s t →
      ∀ x ∈ t.queue, x ∈ s.queue ∨ ∃ d, x.2 = d + 1 ∧ d < p.maxDepth) := by
  constructor
  · intro p s hreach hmd
    obtain ⟨hq, hp, _, hls, htr⟩ := spDepthZeroInv_reach p hmd s hreach
    exact ⟨htr, hls, hq, hp⟩
  · intro p s t hstep x hx
    cases hstep with
    | dispatchHit u d rest hq0 hv =>
      exact Or.inl (by rw [hq0]; exact List.mem_cons_of_mem _ hx)
    | dispatchMiss u d rest hq0 hv =>
      exact Or.inl (by rw [hq0]; exact List.mem_cons_of_mem _ hx)
    | start u d hps => exact Or.inl hx
    | finishOk u d links hrun hd =>
      rcases enqueueLinks_queue_mem (spBaseHost p) d s.visited links
        s.linkSet s.queue x hx with h | h
      · exact Or.inl h
      · exact Or.inr ⟨d, h, hd⟩
    | finishNoExtract u d hrun => exact Or.inl hx

/-- C5 witness: the first part applied to the initial state of a crawl with
`default_deep = 0`, and the second to the dispatch step out of that state. -/
theorem c5_witness :
    ((∀ u ∈ (initSpState (mkSpParams (S "https://example.com/")
        { defaultConfig with default_deep := 0 })).trace,
       u = (mkSpParams (S "https://example.com/")
        { defaultConfig with default_deep := 0 }).seed) ∧
     (initSpState (mkSpParams (S "https://example.com/")
        { defaultConfig with default_deep := 0 })).linkSet = [] ∧
     (∀ x ∈ (initSpState (mkSpParams (S "https://example.com/")
        { defaultConfig with default_deep := 0 })).queue,
       x = ((mkSpParams (S "https://example.com/")
        { defaultConfig with default_deep := 0 }).seed, 0)) ∧
     (∀ x ∈ (initSpState (mkSpParams (S "https://example.com/")
        { defaultConfig with default_deep := 0 })).pending,
       x = ((mkSpParams (S "https://example.com/")
        { defaultConfig with default_deep := 0 }).seed, 0))) :=
  c5_depth_bound.1 (mkSpParams (S "https://example.com/")
    { defaultConfig with default_deep := 0 })
    (initSpState (mkSpParams (S "https://example.com/")
      { defaultConfig with default_deep := 0 })) SpReach.init rfl

/-- `str::replace` leaves a string alone when a pattern character is absent. -/
theorem replaceAllAux_absent {c : Char} {pat : Str} (hc : c ∈ pat) (rep : Str) :
    ∀ (s : Str) (fuel : Nat), c ∉ s → replaceAllAux pat rep fuel s = s := by
  intro s
  induction s with
  | nil => intro fuel _; cases fuel <;> rfl
  | cons a t ih =>
    intro fuel hs
    cases fuel with
    | zero => rfl
    | succ f =>
      have hcond : ¬(¬pat.isEmpty = true ∧ pat.isPrefixOf (a :: t) = true) := by
        rintro ⟨-, hpre⟩
        exact hs (mem_of_prefixOf hpre hc)
      rw [replaceAllAux, if_neg hcond, ih f fun h => hs (List.mem_cons_of_mem a h)]

/-- `str::replace` copies a block that cannot contain the pattern's first
character. -/
theorem replaceAllAux_skip {p0 : Char} {pr : Str} (rep : Str) :
    ∀ (A : Str) (fuel : Nat) (rest : Str), p0 ∉ A →
      replaceAllAux (p0 :: pr) rep (A.length + fuel) (A ++ rest) =
        A ++ replaceAllAux (p0 :: pr) rep fuel rest := by
  intro A
  induction A with
  | nil => intro fuel rest _; simp
  | cons a A2 ih =>
    intro fuel rest hna
    have hlen : (a :: A2).length + fuel = (A2.length + fuel) + 1 := by
      simp only [List.length_cons]
      omega
    have hcond : ¬(¬(p0 :: pr).isEmpty = true ∧
        (p0 :: pr).isPrefixOf (a :: (A2 ++ rest)) = true) := by
      rintro ⟨-, hpre⟩
      simp only [List.isPrefixOf, Bool.and_eq_true, beq_iff_eq] at hpre
      exact hna (by simp [hpre.1])
    rw [hlen, List.cons_append, replaceAllAux, if_neg hcond,
      ih fuel rest fun h => hna (List.mem_cons_of_mem a h)]
    simp

/-- `str::replace` fires at an occurrence of the pattern. -/
theorem replaceAllAux_hit (pat rep rest : Str) (fuel : Nat) (hne : pat ≠ []) :
    replaceAllAux pat rep (fuel + 1) (pat ++ rest) =
      rep ++ replaceAllAux pat rep fuel rest := by
  cases pat with
  | nil => cases hne rfl
  | cons p pr =>
    have hcond : ¬(p :: pr).isEmpty = true ∧
        (p :: pr).isPrefixOf ((p :: pr) ++ rest) = true :=
      ⟨by simp, prefixOf_append_self _ _⟩
    rw [List.cons_append, replaceAllAux, if_pos (by simp only [List.cons_append] at hcond; exact hcond)]
    have hdrop : (p :: (pr ++ rest)).drop (p :: pr).length = rest := by
      rw [← List.cons_append, List.drop_left]
    rw [hdrop]

/-- Replacing the unique occurrence of a link whose opening bracket occurs
nowhere else in the line. -/
theorem replaceAll_single {p0 : Char} (lrest rep pre post : Str)
    (hpre : p0 ∉ pre) (hpost : p0 ∉ post) :
    replaceAll (p0 :: lrest) rep (pre ++ ((p0 :: lrest) ++ post)) =
      pre ++ (rep ++ post) := by
  rw [replaceAll]
  have hlen : (pre ++ ((p0 :: lrest) ++ post)).length + 1 =
      pre.length + (((p0 :: lrest) ++ post).length + 1) := by
    simp
    omega
  rw [hlen, replaceAllAux_skip rep pre _ _ hpre,
    replaceAllAux_hit (p0 :: lrest) rep post ((p0 :: lrest) ++ post).length
      (by simp),
    replaceAllAux_absent (List.mem_cons_self p0 lrest) rep post _ hpost]

/-- The `process_links` loop returns when no `](` remains. -/
theorem processLinksAux_done (baseDomain : Str) (f : Nat) (result : Str)
    (linkStart : Nat)
    (hfind : findSub (result.drop linkStart) brkParen = none) :
    processLinksAux baseDomain (f + 1) result linkStart = result := by
  rw [processLinksAux, hfind]

/-- The `process_links` loop skips a link whose URL does not parse. -/
theorem processLinksAux_skip_noparse (baseDomain : Str) (f : Nat) (result : Str)
    (linkStart pos textStart e : Nat)
    (hfind : findSub (result.drop linkStart) brkParen = some pos)
    (hrf : rfindChar (result.take (linkStart + pos)) '[' = some textStart)
    (hfc : findChar (result.drop (linkStart + pos + 2)) ')' = some e)
    (hpu : parseUrl ((result.take (linkStart + pos + 2 + e)).drop (linkStart + pos + 2)) = none) :
    processLinksAux baseDomain (f + 1) result linkStart =
      processLinksAux baseDomain f result (linkStart + pos + 2) := by
  rw [processLinksAux]
  simp only [hfind, hrf, hfc, hpu]

/-- The `process_links` loop skips a link whose URL has no host. -/
theorem processLinksAux_skip_nohost (baseDomain : Str) (f : Nat) (result : Str)
    (linkStart pos textStart e : Nat) (pu : UrlT)
    (hfind : findSub (result.drop linkStart) brkParen = some pos)
    (hrf : rfindChar (result.take (linkStart + pos)) '[' = some textStart)
    (hfc : findChar (result.drop (linkStart + pos + 2)) ')' = some e)
    (hpu : parseUrl ((result.take (linkStart + pos + 2 + e)).drop (linkStart + pos + 2)) = some pu)
    (hh : pu.host = none) :
    processLinksAux baseDomain (f + 1) result linkStart =
      processLinksAux baseDomain f result (linkStart + pos + 2) := by
  rw [processLinksAux]
  simp only [hfind, hrf, hfc, hpu, hh]

/-- The `process_links` loop keeps a link whose host contains the base
domain and continues scanning after the `](`. -/
theorem processLinksAux_skip_ondomain (baseDomain : Str) (f : Nat) (result : Str)
    (linkStart pos textStart e : Nat) (pu : UrlT) (h : Str)
    (hfind : findSub (result.drop linkStart) brkParen = some pos)
    (hrf : rfindChar (result.take (linkStart + pos)) '[' = some textStart)
    (hfc : findChar (result.drop (linkStart + pos + 2)) ')' = some e)
    (hpu : parseUrl ((result.take (linkStart + pos + 2 + e)).drop (linkStart + pos + 2)) = some pu)
    (hh : pu.host = some h) (hcont : containsSub h baseDomain = true) :
    processLinksAux baseDomain (f + 1) result linkStart =
      processLinksAux baseDomain f result (linkStart + pos + 2) := by
  rw [processLinksAux]
  simp only [hfind, hrf, hfc, hpu, hh, hcont, Bool.not_true, Bool.false_eq_true,
    if_false]

/-- The `process_links` loop rewrites a link whose host does not contain the
base domain: the reconstructed link is replaced by its bare text everywhere
and the scan restarts. -/
theorem processLinksAux_replace (baseDomain : Str) (f : Nat) (result : Str)
    (linkStart pos textStart e : Nat) (pu : UrlT) (h : Str)
    (hfind : findSub (result.drop linkStart) brkParen = some pos)
    (hrf : rfindChar (result.take (linkStart + pos)) '[' = some textStart)
    (hfc : findChar (result.drop (linkStart + pos + 2)) ')' = some e)
    (hpu : parseUrl ((result.take (linkStart + pos + 2 + e)).drop (linkStart + pos + 2)) = some pu)
    (hh : pu.host = some h) (hcont : containsSub h baseDomain = false) :
    processLinksAux baseDomain (f + 1) result linkStart =
      processLinksAux baseDomain f
        (replaceAll
          ('[' :: ((result.take (linkStart + pos)).drop (textStart + 1)) ++ brkParen ++
            ((result.take (linkStart + pos + 2 + e)).drop (linkStart + pos + 2)) ++ [')'])
          ((result.take (linkStart + pos)).drop (textStart + 1)) result) 0 := by
  rw [processLinksAux]
  simp only [hfind, hrf, hfc, hpu, hh, hcont, Bool.not_false, if_true]

/-- C4 (amended): on a line consisting of a single well-formed Markdown link
`[t](u)` whose text, URL and surrounding text are free of brackets and
parentheses, `process_links` rewrites the link to its bare text when the
URL's host does not contain the base domain, and leaves the line unchanged
when the URL does not parse, has no host, or has a host containing the base
domain.  (Lines with nested bracket/parenthesis material can be rewritten
differently — see the counterexample.) -/
theorem c4_link_rewrite_clean_lines :
    ∀ (base pre t u post : Str),
      bracketFree pre → bracketFree t → bracketFree u → bracketFree post →
      (∀ pu h, parseUrl u = some pu → pu.host = some h →
        containsSub h base = false →
        processLinks (mkLinkLine pre t u post) base = pre ++ t ++ post) ∧
      ((parseUrl u = none ∨ ∃ pu, parseUrl u = some pu ∧
          (pu.host = none ∨ ∃ h, pu.host = some h ∧ containsSub h base = true)) →
        processLinks (mkLinkLine pre t u post) base = mkLinkLine pre t u post) := by
  intro base pre t u post hpre ht hu hpost
  unfold bracketFree at hpre ht hu hpost
  obtain ⟨hpre1, hpre2, hpre3, hpre4⟩ := hpre
  obtain ⟨ht1, ht2, ht3, ht4⟩ := ht
  obtain ⟨hu1, hu2, hu3, hu4⟩ := hu
  obtain ⟨hpost1, hpost2, hpost3, hpost4⟩ := hpost
  have hsplit1 : mkLinkLine pre t u post =
      (pre ++ '[' :: t) ++ (brkParen ++ (u ++ ')' :: post)) := by
    simp [mkLinkLine, brkParen]
  have hsplit2 : mkLinkLine pre t u post =
      ((pre ++ '[' :: t) ++ brkParen) ++ (u ++ ')' :: post) := by
    simp [mkLinkLine, brkParen]
  have hA_nrb : ']' ∉ pre ++ '[' :: t := by
    intro hmem
    rcases List.mem_append.mp hmem with hm | hm
    · exact hpre2 hm
    · rcases List.mem_cons.mp hm with hm | hm
      · exact absurd hm (by decide)
      · exact ht2 hm
  have hlenAB : ((pre ++ '[' :: t) ++ brkParen).length =
      (pre ++ '[' :: t).length + 2 := by
    simp [brkParen]
    omega
  have hfs : findSub ((mkLinkLine pre t u post).drop 0) brkParen =
      some (pre ++ '[' :: t).length := by
    simp only [List.drop_zero]
    rw [hsplit1]
    exact findSub_block (pre ++ '[' :: t) brkParen (u ++ ')' :: post) ']' ['('] rfl hA_nrb
  have htakeA : (mkLinkLine pre t u post).take (0 + (pre ++ '[' :: t).length) =
      pre ++ '[' :: t := by
    simp only [Nat.zero_add]
    rw [hsplit1]
    exact List.take_left _ _
  have hrfA : rfindChar
      ((mkLinkLine pre t u post).take (0 + (pre ++ '[' :: t).length)) '[' =
      some pre.length := by
    rw [htakeA]
    exact rfindChar_append_last ht1 pre
  have hdropAB : (mkLinkLine pre t u post).drop
      (0 + (pre ++ '[' :: t).length + 2) = u ++ ')' :: post := by
    simp only [Nat.zero_add]
    rw [hsplit2, ← hlenAB]
    exact List.drop_left _ _
  have hfcP : findChar ((mkLinkLine pre t u post).drop
      (0 + (pre ++ '[' :: t).length + 2)) ')' = some u.length := by
    rw [hdropAB]
    exact findChar_append_first u post hu4
  have hurl : ((mkLinkLine pre t u post).take
      (0 + (pre ++ '[' :: t).length + 2 + u.length)).drop
      (0 + (pre ++ '[' :: t).length + 2) = u := by
    simp only [Nat.zero_add]
    rw [hsplit2, ← hlenAB, List.take_append u.length, List.take_left,
      List.drop_left]
  have htext : ((mkLinkLine pre t u post).take
      (0 + (pre ++ '[' :: t).length)).drop (pre.length + 1) = t := by
    rw [htakeA, List.drop_append 1]
    simp
  obtain ⟨f, hf⟩ : ∃ f, ((mkLinkLine pre t u post).length + 2) *
      ((mkLinkLine pre t u post).length + 2) = f + 2 := by
    refine ⟨((mkLinkLine pre t u post).length + 2) *
      ((mkLinkLine pre t u post).length + 2) - 2, ?_⟩
    have h2 : 2 * 1 ≤ ((mkLinkLine pre t u post).length + 2) *
        ((mkLinkLine pre t u post).length + 2) :=
      Nat.mul_le_mul (by omega) (by omega)
    omega
  have hdone1 : findSub ((pre ++ (t ++ post)).drop 0) brkParen = none := by
    rw [List.drop_zero]
    refine findSub_none_of_not_mem (show ']' ∈ brkParen by decide) _ ?_
    intro hm
    rcases List.mem_append.mp hm with hm | hm
    · exact hpre2 hm
    · rcases List.mem_append.mp hm with hm | hm
      · exact ht2 hm
      · exact hpost2 hm
  have hdone2 : findSub ((mkLinkLine pre t u post).drop
      (0 + (pre ++ '[' :: t).length + 2)) brkParen = none := by
    rw [hdropAB]
    refine findSub_none_of_not_mem (show ']' ∈ brkParen by decide) _ ?_
    intro hm
    rcases List.mem_append.mp hm with hm | hm
    · exact hu2 hm
    · rcases List.mem_cons.mp hm with hm | hm
      · exact absurd hm (by decide)
      · exact hpost2 hm
  constructor
  · intro pu h hpu hh hcont
    have hpu0 : parseUrl (((mkLinkLine pre t u post).take
        (0 + (pre ++ '[' :: t).length + 2 + u.length)).drop
        (0 + (pre ++ '[' :: t).length + 2)) = some pu := by
      rw [hurl]
      exact hpu
    rw [processLinks, hf, show f + 2 = (f + 1) + 1 from rfl,
      processLinksAux_replace base (f + 1) (mkLinkLine pre t u post) 0
        (pre ++ '[' :: t).length pre.length u.length pu h hfs hrfA hfcP hpu0 hh hcont,
      htext, hurl]
    have hlink : ('[' :: t ++ brkParen ++ u ++ [')']) =
        '[' :: (((t ++ brkParen) ++ u) ++ [')']) := by
      simp
    have hLshape : mkLinkLine pre t u post =
        pre ++ (('[' :: (((t ++ brkParen) ++ u) ++ [')'])) ++ post) := by
      simp [mkLinkLine, brkParen]
    rw [hlink, hLshape,
      replaceAll_single (((t ++ brkParen) ++ u) ++ [')']) t pre post hpre1 hpost1,
      processLinksAux_done base f _ 0 hdone1]
    simp
  · intro hcase
    rw [processLinks, hf, show f + 2 = (f + 1) + 1 from rfl]
    have hnext : processLinksAux base ((f + 1) + 1) (mkLinkLine pre t u post) 0 =
        processLinksAux base (f + 1) (mkLinkLine pre t u post)
          (0 + (pre ++ '[' :: t).length + 2) := by
      rcases hcase with hnone | ⟨pu, hpu, hcase2⟩
      · refine processLinksAux_skip_noparse base (f + 1) _ 0
          (pre ++ '[' :: t).length pre.length u.length hfs hrfA hfcP ?_
        rw [hurl]
        exact hnone
      · rcases hcase2 with hhn | ⟨h, hh, hcont⟩
        · refine processLinksAux_skip_nohost base (f + 1) _ 0
            (pre ++ '[' :: t).length pre.length u.length pu hfs hrfA hfcP ?_ hhn
          rw [hurl]
          exact hpu
        · refine processLinksAux_skip_ondomain base (f + 1) _ 0
            (pre ++ '[' :: t).length pre.length u.length pu h hfs hrfA hfcP ?_ hh hcont
          rw [hurl]
          exact hpu
    rw [hnext]
    exact processLinksAux_done base f _ _ hdone2

/-- C4 counterexample: the line `[a](http://example.com/[x](http://other.com))`
is a single Markdown link whose destination (balanced parentheses) has host
`example.com`, which contains the base domain — yet `process_links` rewrites
it to `[a](http://example.com/x)`: the scanner finds the inner `[x](...)`
pattern inside the URL and replaces it, so a link whose host contains the
base domain is not left unchanged. -/
theorem c4_counterexample :
    processLinks (S "[a](http://example.com/[x](http://other.com))")
        (S "example.com") = S "[a](http://example.com/x)" ∧
    processLinks (S "[a](http://example.com/[x](http://other.com))")
        (S "example.com") ≠ S "[a](http://example.com/[x](http://other.com))" ∧
    (parseUrl (S "http://example.com/[x](http://other.com)")).map UrlT.host =
      some (some (S "example.com")) ∧
    containsSub (S "example.com") (S "example.com") = true := by
  refine ⟨by decide, by decide, by decide, by decide⟩

/-- C4 witness: the amended theorem applied to the specification's scenario
links — `[ext](https://other.com)` becomes `ext` and
`[home](https://example.com)` is kept unchanged under base domain
`example.com`. -/
theorem c4_witness :
    processLinks (mkLinkLine [] (S "ext") (S "https://other.com") [])
        (S "example.com") = [] ++ S "ext" ++ [] ∧
    processLinks (mkLinkLine [] (S "home") (S "https://example.com") [])
        (S "example.com") =
      mkLinkLine [] (S "home") (S "https://example.com") [] := by
  constructor
  · exact (c4_link_rewrite_clean_lines (S "example.com") [] (S "ext")
      (S "https://other.com") []
      (by refine ⟨?_, ?_, ?_, ?_⟩ <;> decide)
      (by refine ⟨?_, ?_, ?_, ?_⟩ <;> decide)
      (by refine ⟨?_, ?_, ?_, ?_⟩ <;> decide)
      (by refine ⟨?_, ?_, ?_, ?_⟩ <;> decide)).1
      { scheme := S "https", host := some (S "other.com"), path := S "/", rest := [] }
      (S "other.com") (by decide) rfl (by decide)
  · exact (c4_link_rewrite_clean_lines (S "example.com") [] (S "home")
      (S "https://example.com") []
      (by refine ⟨?_, ?_, ?_, ?_⟩ <;> decide)
      (by refine ⟨?_, ?_, ?_, ?_⟩ <;> decide)
      (by refine ⟨?_, ?_, ?_, ?_⟩ <;> decide)
      (by refine ⟨?_, ?_, ?_, ?_⟩ <;> decide)).2
      (Or.inr ⟨{ scheme := S "https", host := some (S "example.com"), path := S "/", rest := [] },
        by decide, Or.inr ⟨S "example.com", rfl, by decide⟩⟩)

end Docling
